import Mathlib

/-!
Verification development for `joern_to_neo4j.py`.

The script's only original logic is the rewriting of generated Cypher import
scripts (`import_online_neo4j`), the discovery of those scripts
(`get_cypher_files`), and the driver / `main` orchestration.  Texts are
modelled as `List Char`.  The Python regex

  `(LOAD\s+CSV(?:\s+WITH\s+HEADERS)?\s+FROM\s+)'file:/([^']+)'(\s+AS\s+(\w+))`

with `re.IGNORECASE` is embedded as a deterministic matcher `matchAt`
(leftmost search = `searchSplit`); greedy quantifiers over the disjoint
character classes of this pattern never need backtracking except for the
optional `WITH HEADERS` group, which is modelled with `<|>`.
-/

namespace JoernToNeo4j

/-- ASCII whitespace accepted by Python `\s` (and `str.strip`). -/
def isSpaceB (c : Char) : Bool :=
  c == ' ' || c == '\t' || c == '\n' || c == '\r' || c == '\x0b' || c == '\x0c'

/-- Python `\w` on ASCII input: alphanumeric or underscore. -/
def isWordB (c : Char) : Bool :=
  c.isAlphanum || c == '_'

/-- The quote character `'` (written via its code to keep texts readable). -/
def qc : Char := '\x27'

/-- Not-a-quote, the class `[^']`. -/
def isNotQuote (c : Char) : Bool := c != qc

/-- ASCII lower-casing, as used by `re.IGNORECASE` on ASCII letters. -/
def lowerC (c : Char) : Char :=
  if 'A' ≤ c ∧ c ≤ 'Z' then Char.ofNat (c.toNat + 32) else c

/-- Case-insensitive character comparison. -/
def ciEqChar (a b : Char) : Bool := lowerC a == lowerC b

/-- Case-insensitive list comparison (pointwise, same length). -/
def ciEq : List Char → List Char → Bool
  | [], [] => true
  | a :: as, b :: bs => ciEqChar a b && ciEq as bs
  | _, _ => false

/-- Consume a maximal nonempty run of characters satisfying `p`
    (a greedy `p+` whose follower class is disjoint from `p`). -/
def run (p : Char → Bool) (l : List Char) : Option (List Char × List Char) :=
  let t := l.takeWhile p
  if t.isEmpty then none else some (t, l.dropWhile p)

/-- Consume a literal, case-insensitively; returns the consumed text. -/
def dropLit : List Char → List Char → Option (List Char × List Char)
  | [], l => some ([], l)
  | _ :: _, [] => none
  | a :: as, c :: cs =>
    if ciEqChar c a then (dropLit as cs).map (fun p => (c :: p.1, p.2)) else none

/-- The pieces of one match of the LOAD CSV pattern, exactly as consumed. -/
structure LoadMatch where
  kLoad : List Char
  w1 : List Char
  kCsv : List Char
  optWH : Option (List Char × List Char × List Char × List Char)
  w2 : List Char
  kFrom : List Char
  w3 : List Char
  lit : List Char
  g2 : List Char
  w4 : List Char
  kAs : List Char
  w5 : List Char
  g4 : List Char
  deriving DecidableEq, Repr

/-- Text of the optional `\s+WITH\s+HEADERS` group. -/
def optText : Option (List Char × List Char × List Char × List Char) → List Char
  | none => []
  | some (a, b, c, d) => a ++ b ++ c ++ d

/-- Group 1 of the pattern: `LOAD\s+CSV(?:\s+WITH\s+HEADERS)?\s+FROM\s+`. -/
def LoadMatch.g1 (m : LoadMatch) : List Char :=
  m.kLoad ++ m.w1 ++ m.kCsv ++ optText m.optWH ++ m.w2 ++ m.kFrom ++ m.w3

/-- Group 3 of the pattern: `\s+AS\s+(\w+)`. -/
def LoadMatch.g3 (m : LoadMatch) : List Char :=
  m.w4 ++ m.kAs ++ m.w5 ++ m.g4

/-- The full matched text: group 1, `'file:/`, group 2, `'`, group 3. -/
def LoadMatch.text (m : LoadMatch) : List Char :=
  m.g1 ++ qc :: (m.lit ++ m.g2 ++ qc :: m.g3)

/-- Continuation of the matcher after `LOAD\s+CSV` and the optional
    `WITH HEADERS` group: `\s+FROM\s+'file:/([^']+)'\s+AS\s+(\w+)`. -/
def matchFrom (kL w1 kC : List Char)
    (opt : Option (List Char × List Char × List Char × List Char))
    (s : List Char) : Option (LoadMatch × List Char) :=
  (run isSpaceB s).bind fun p2 =>
  (dropLit "FROM".toList p2.2).bind fun pF =>
  (run isSpaceB pF.2).bind fun p3 =>
  match p3.2 with
  | c :: s8 =>
    if c = qc then
      (dropLit "file:/".toList s8).bind fun pL =>
      (run isNotQuote pL.2).bind fun pG =>
      match pG.2 with
      | c2 :: s11 =>
        if c2 = qc then
          (run isSpaceB s11).bind fun p4 =>
          (dropLit "AS".toList p4.2).bind fun pA =>
          (run isSpaceB pA.2).bind fun p5 =>
          (run isWordB p5.2).map fun pV =>
            (⟨kL, w1, kC, opt, p2.1, pF.1, p3.1, pL.1, pG.1, p4.1, pA.1, p5.1, pV.1⟩, pV.2)
        else none
      | [] => none
    else none
  | [] => none

/-- Attempt a match of the whole pattern anchored at the head of `s`.
    The optional `WITH HEADERS` group is tried greedily first, with
    backtracking to the empty alternative, as in the regex engine. -/
def matchAt (s : List Char) : Option (LoadMatch × List Char) :=
  (dropLit "LOAD".toList s).bind fun pL =>
  (run isSpaceB pL.2).bind fun p1 =>
  (dropLit "CSV".toList p1.2).bind fun pC =>
  (((run isSpaceB pC.2).bind fun pa =>
    (dropLit "WITH".toList pa.2).bind fun pW =>
    (run isSpaceB pW.2).bind fun pb =>
    (dropLit "HEADERS".toList pb.2).bind fun pH =>
      matchFrom pL.1 p1.1 pC.1 (some (pa.1, pW.1, pb.1, pH.1)) pH.2)
   <|> matchFrom pL.1 p1.1 pC.1 none pC.2)

/-- `re.search`: try every start position left to right; on success return
    the text before the match, the match, and the text after it. -/
def searchSplit : List Char → Option (List Char × LoadMatch × List Char)
  | [] =>
    match matchAt [] with
    | some (m, r) => some ([], m, r)
    | none => none
  | c :: cs =>
    match matchAt (c :: cs) with
    | some (m, r) => some ([], m, r)
    | none => (searchSplit cs).map (fun t => (c :: t.1, t.2.1, t.2.2))

/-- Python `str.strip()` (ASCII whitespace at both ends). -/
def stripList (l : List Char) : List Char :=
  ((l.dropWhile isSpaceB).reverse.dropWhile isSpaceB).reverse

/-- Split on `/` separators; components may be empty. -/
def splitSlash : List Char → List (List Char)
  | [] => [[]]
  | c :: cs =>
    let r := splitSlash cs
    if c = '/' then [] :: r
    else
      match r with
      | [] => [[c]]
      | h :: t => (c :: h) :: t

/-- `pathlib.PurePath(p).name`: the final path component, with empty and `.`
    components dropped (pathlib normalises them away); `""` if none is left. -/
def pathName (l : List Char) : List Char :=
  (((splitSlash l).filter (fun s => !s.isEmpty && s != ['.'])).getLast?).getD []

/-- `core_logic.replace(chr(10), chr(10) + "    ")`. -/
def indentNl : List Char → List Char
  | [] => []
  | c :: cs =>
    if c = '\n' then '\n' :: ("    ".toList ++ indentNl cs) else c :: indentNl cs

/-- Batch size for the `IN TRANSACTIONS` clause (line 22). -/
def BATCH_SIZE : Nat := 1000

/-- The batched query assembled at lines 237-246: the load clause, a `CALL`
    block that re-binds the variable and holds the body with its final
    character dropped and newlines re-indented, the batch-size clause, and
    the feedback `RETURN`. -/
def mkBatched (loadFull varName core scriptName : List Char) : List Char :=
  loadFull ++ '\n' ::
    ("CALL \x7b\n    WITH ".toList ++ varName ++ '\n' ::
      ("    ".toList ++ indentNl core.dropLast ++ '\n' ::
        ("\x7d IN TRANSACTIONS OF ".toList ++ (toString BATCH_SIZE).toList ++
          " ROWS\n".toList ++
          "RETURN \x27Batch processed from ".toList ++ scriptName ++ [qc])))

/-- `pattern_load_csv.sub(repl, content, count=1)`: replace the leftmost
    match with `repl` (the groups interpolated into the replacement template
    contain no backslashes when group 2 does not, so the template acts as
    literal text). -/
def subFirst (content repl : List Char) : List Char :=
  match searchSplit content with
  | none => content
  | some (p, _, r) => p ++ repl ++ r

/-- Per-script outcome of the rewrite step (lines 182-246). -/
inductive RewriteOutcome where
  | emptySkip
  | malformed
  | dataFileMissing
  | internalError
  | emptyBody
  | success (batched : List Char)
  deriving DecidableEq, Repr

/-- The rewrite step of `import_online_neo4j` for one script: the empty-file
    skip (183), the search over the text minus its last character (188), the
    data-file existence check in the script's directory (202-203), the
    count=1 substitution over the full text (214-218), the re-search (222),
    the empty-body skip (232), and the batched query (237-246). -/
def rewriteScript (content : List Char) (dirFiles : List (List Char))
    (scriptName : List Char) : RewriteOutcome :=
  if (stripList content).isEmpty then .emptySkip
  else
    match searchSplit content.dropLast with
    | none => .malformed
    | some (_, m, _) =>
      if dirFiles.contains (pathName m.g2) then
        match searchSplit (subFirst content
          (m.g1 ++ qc :: (("file:///".toList ++ pathName m.g2) ++
            qc :: m.g3))) with
        | none => .internalError
        | some (p2, m2, r2) =>
          if (stripList r2).isEmpty then .emptyBody
          else .success (mkBatched (p2 ++ m2.text) m.g4 (stripList r2)
            scriptName)
      else .dataFileMissing

/-- A generated import script: its basename and its text. -/
structure Script where
  name : List Char
  content : List Char
  deriving DecidableEq, Repr

/-- Loop state of the per-file loop (lines 174-282). -/
structure ImportState where
  visited : List Script
  processed : Nat
  importErrors : Bool
  deriving DecidableEq, Repr

/-- One iteration of the per-file loop: every failure of the rewrite step or
    of the execution marks the run as having errors and continues; skips do
    not count as errors; `processed` is incremented only on success. -/
def processScript (dirFiles : List (List Char)) (exec : List Char → Bool)
    (st : ImportState) (s : Script) : ImportState :=
  let st := { st with visited := st.visited ++ [s] }
  match rewriteScript s.content dirFiles s.name with
  | .emptySkip => st
  | .malformed => { st with importErrors := true }
  | .dataFileMissing => { st with importErrors := true }
  | .internalError => { st with importErrors := true }
  | .emptyBody => st
  | .success q =>
    if exec q then { st with processed := st.processed + 1 }
    else { st with importErrors := true }

/-- The final-return logic of `import_online_neo4j` (lines 286-297). -/
def importOk (importErrors : Bool) (processed : Nat) (hasFiles : Bool) : Bool :=
  if importErrors then false
  else if processed == 0 && hasFiles then false
  else if processed == 0 && !hasFiles then true
  else true

/-- Result of a run of `import_online_neo4j`. -/
structure ImportResult where
  visited : List Script
  processed : Nat
  importErrors : Bool
  ok : Bool
  deriving DecidableEq, Repr

/-- `import_online_neo4j`: iterate the node scripts followed by the edge
    scripts (line 174), rewriting and executing each; `exec` abstracts
    `session.run(...).consume()` succeeding. -/
def import_online_neo4j (nodeFiles edgeFiles : List Script)
    (dirFiles : List (List Char)) (exec : List Char → Bool) : ImportResult :=
  let allFiles := nodeFiles ++ edgeFiles
  let st := allFiles.foldl (processScript dirFiles exec) ⟨[], 0, false⟩
  { visited := st.visited, processed := st.processed,
    importErrors := st.importErrors,
    ok := importOk st.importErrors st.processed
      (!(nodeFiles.isEmpty && edgeFiles.isEmpty)) }

/-- `fnmatch`-style test for `<pre>*<suf>` over a file name. -/
def globMatch (pre suf name : List Char) : Bool :=
  pre.isPrefixOf name && suf.isSuffixOf (name.drop pre.length)

/-- Lexicographic (code-point) order on names, as Python compares paths of a
    common directory. -/
def lexLe : List Char → List Char → Bool
  | [], _ => true
  | _ :: _, [] => false
  | a :: as, b :: bs => if a < b then true else if a = b then lexLe as bs else false

/-- Ordering relation on scripts by name, used by `sorted(...)`. -/
def scriptLe (a b : Script) : Prop := lexLe a.name b.name = true

instance : DecidableRel scriptLe :=
  fun a b => (inferInstance : Decidable (lexLe a.name b.name = true))

/-- `sorted(...)` on discovered scripts. -/
def sortByName (l : List Script) : List Script := l.insertionSort scriptLe

/-- Discovery failure: the directory does not exist or is not a directory. -/
inductive DiscoveryError where
  | notFound
  deriving DecidableEq, Repr

/-- `get_cypher_files` (lines 95-125): `none` models a path that is not a
    directory; otherwise the `nodes_*_cypher.csv` and `edges_*_cypher.csv`
    globs, each sorted. -/
def get_cypher_files (dirListing : Option (List Script)) :
    Except DiscoveryError (List Script × List Script) :=
  match dirListing with
  | none => .error .notFound
  | some files =>
    .ok (sortByName (files.filter
           (fun s => globMatch "nodes_".toList "_cypher.csv".toList s.name)),
         sortByName (files.filter
           (fun s => globMatch "edges_".toList "_cypher.csv".toList s.name)))

/-- A Python exception surfacing as an uncaught error. -/
inductive PyErr where
  | attributeError
  deriving DecidableEq, Repr

/-- Process outcome of `main`: a `sys.exit` code, or an uncaught exception
    (CPython then terminates the process with status 1). -/
inductive MainResult where
  | exit (code : Nat)
  | pyError (e : PyErr)
  deriving DecidableEq, Repr

/-- Python truthiness of an optional string (`None` and `""` are falsy). -/
def truthy : Option (List Char) → Bool
  | none => false
  | some s => !s.isEmpty

/-- The `argparse.Namespace`: attribute access by destination name. -/
structure ArgsNamespace where
  attrs : List (String × Option (List Char))
  deriving Repr

/-- `getattr`: `none` when the attribute was never defined. -/
def ArgsNamespace.getattrOpt (ns : ArgsNamespace) (a : String) :
    Option (Option (List Char)) :=
  ns.attrs.lookup a

/-- The namespace produced by `parser.parse_args()` (lines 305-321): exactly
    these destination attributes exist, `neo4j_password` possibly `None`. -/
def parseArgs (inputPath outputDir jvmMem uri user : List Char)
    (password : Option (List Char)) (db importDir : List Char) : ArgsNamespace :=
  ⟨[("input_path", some inputPath), ("output_dir", some outputDir),
    ("jvm_mem", some jvmMem), ("neo4j_uri", some uri),
    ("neo4j_user", some user), ("neo4j_password", password),
    ("neo4j_database", some db), ("neo4j_import_dir", some importDir)]⟩

/-- Environment of one invocation: CLI/env inputs and the outcomes of the
    external collaborators (Joern, the filesystem, the Neo4j driver). -/
structure MainEnv where
  cliInputPath : List Char
  cliOutputDir : List Char
  cliJvmMem : List Char
  cliUri : List Char
  cliUser : List Char
  cliPassword : Option (List Char)
  envPassword : Option (List Char)
  cliDb : List Char
  cliImportDir : List Char
  inputPathExists : Bool
  inputPathIsDir : Bool
  inputPathIsFile : Bool
  parseOk : Bool
  exportDirExists : Bool
  rmtreeOk : Bool
  exportOk : Bool
  copyOk : Bool
  dirListing : Option (List Script)
  connectOk : Bool
  dirFiles : List (List Char)
  exec : List Char → Bool

/-- `main` (lines 300-457): returns the process outcome and whether the
    Joern parse phase (line 361) was ever reached. -/
def mainRun (env : MainEnv) : MainResult × Bool :=
  let pw := if truthy env.cliPassword then env.cliPassword else env.envPassword
  if !truthy pw then (.exit 1, false)
  else
    let args := parseArgs env.cliInputPath env.cliOutputDir env.cliJvmMem
      env.cliUri env.cliUser pw env.cliDb env.cliImportDir
    if !env.inputPathExists then (.exit 1, false)
    else if !env.inputPathIsDir && !env.inputPathIsFile then (.exit 1, false)
    else if !truthy pw then (.exit 1, false)
    else
      match args.getattrOpt "neo4j_url" with
      | none => (.pyError .attributeError, false)
      | some v =>
        if !truthy v then (.exit 1, false)
        else if !env.parseOk then (.exit 1, true)
        else if env.exportDirExists && !env.rmtreeOk then (.exit 1, true)
        else if !env.exportOk then (.exit 1, true)
        else if !env.copyOk then (.exit 1, true)
        else
          match get_cypher_files env.dirListing with
          | .error _ => (.exit 1, true)
          | .ok (ns, es) =>
            if ns.isEmpty && es.isEmpty then (.exit 0, true)
            else if !env.connectOk then (.exit 1, true)
            else
              let res := import_online_neo4j ns es env.dirFiles env.exec
              if res.ok then (.exit 0, true) else (.exit 1, true)

/-! ### Spec-side comparison definition and concrete instances -/

/-- Modelled from the spec: "the body (with its final terminator character
    stripped and each newline re-indented for readability — purely
    cosmetic)".  Only a final terminator (`;`) is stripped; any other final
    character is kept. -/
def specBodyTransform (core : List Char) : List Char :=
  indentNl (if core.getLast? = some ';' then core.dropLast else core)

/-- Modelled from the spec: the batched query the specification predicts —
    identical to `mkBatched` except that the body keeps a non-terminator
    final character. -/
def specWrapped (loadFull varName core scriptName : List Char) : List Char :=
  loadFull ++ '\n' ::
    ("CALL \x7b\n    WITH ".toList ++ varName ++ '\n' ::
      ("    ".toList ++ specBodyTransform core ++ '\n' ::
        ("\x7d IN TRANSACTIONS OF ".toList ++ (toString BATCH_SIZE).toList ++
          " ROWS\n".toList ++
          "RETURN \x27Batch processed from ".toList ++ scriptName ++ [qc])))

/-- A well-formed one-clause script (concrete instance). -/
def w1Content : List Char :=
  "LOAD CSV FROM \x27file:/a_data.csv\x27 AS l\nX;\n".toList

/-- Directory listing holding the referenced sibling data file. -/
def w1Dir : List (List Char) := ["a_data.csv".toList]

/-- The match of the load clause of `w1Content` (and of `cexContent`). -/
def w1M : LoadMatch :=
  ⟨"LOAD".toList, [' '], "CSV".toList, none, [' '], "FROM".toList, [' '],
    "file:/".toList, "a_data.csv".toList, [' '], "AS".toList, [' '], ['l']⟩

/-- The text after the load clause of `w1Content`. -/
def w1R : List Char := "\nX;\n".toList

/-- A script whose body ends in a non-terminator character. -/
def cexContent : List Char :=
  "LOAD CSV FROM \x27file:/a_data.csv\x27 AS l\nCREATE (n)\n".toList

/-- The text after the load clause of `cexContent`. -/
def cexR : List Char := "\nCREATE (n)\n".toList

/-- The rewritten load clause shared by the concrete instances. -/
def cexLoadFull : List Char :=
  "LOAD CSV FROM \x27file:///a_data.csv\x27 AS l".toList

/-- A malformed script (no load clause). -/
def wBad : Script := ⟨"nodes_bad_cypher.csv".toList, "junk;\n".toList⟩

/-- A well-formed script. -/
def wGood : Script := ⟨"nodes_good_cypher.csv".toList, w1Content⟩

/-- Discovery example files (deliberately listed out of order). -/
def exA : Script := ⟨"nodes_a_cypher.csv".toList, []⟩

/-- Discovery example files. -/
def exB : Script := ⟨"nodes_b_cypher.csv".toList, []⟩

/-- Discovery example files. -/
def exX : Script := ⟨"edges_x_cypher.csv".toList, []⟩

/-- An unsorted directory listing for the discovery example. -/
def exListing : List Script := [exX, exB, exA]

/-- An environment with a valid input path and password and every external
    collaborator succeeding. -/
def wEnv : MainEnv where
  cliInputPath := "src".toList
  cliOutputDir := "joern_neo4j_output".toList
  cliJvmMem := "-J-Xmx4G".toList
  cliUri := "bolt://localhost:7687".toList
  cliUser := "neo4j".toList
  cliPassword := some "pw".toList
  envPassword := none
  cliDb := "neo4j".toList
  cliImportDir := "joern_neo4j_import".toList
  inputPathExists := true
  inputPathIsDir := true
  inputPathIsFile := false
  parseOk := true
  exportDirExists := false
  rmtreeOk := true
  exportOk := true
  copyOk := true
  dirListing := some [wGood]
  connectOk := true
  dirFiles := w1Dir
  exec := fun _ => true

/-! ### Well-formedness of match pieces -/

/-- A nonempty run of ASCII whitespace. -/
def spaceRun (l : List Char) : Prop := l ≠ [] ∧ ∀ c ∈ l, isSpaceB c = true

/-- What holds of the text following the final `\w+` group of a match. -/
def wordStop (r : List Char) : Prop := ∀ c cs, r = c :: cs → isWordB c = false

/-- Well-formedness of the optional `\s+WITH\s+HEADERS` pieces. -/
def WFopt : Option (List Char × List Char × List Char × List Char) → Prop
  | none => True
  | some (wa, kW, wb, kH) =>
    spaceRun wa ∧ ciEq kW "WITH".toList = true ∧ spaceRun wb ∧
      ciEq kH "HEADERS".toList = true

/-- Intrinsic well-formedness of the pieces of a `LoadMatch`. -/
structure WF (m : LoadMatch) : Prop where
  hLoad : ciEq m.kLoad "LOAD".toList = true
  hw1 : spaceRun m.w1
  hCsv : ciEq m.kCsv "CSV".toList = true
  hOpt : WFopt m.optWH
  hw2 : spaceRun m.w2
  hFrom : ciEq m.kFrom "FROM".toList = true
  hw3 : spaceRun m.w3
  hLit : ciEq m.lit "file:/".toList = true
  hg2 : m.g2 ≠ []
  hg2q : ∀ c ∈ m.g2, c ≠ qc
  hw4 : spaceRun m.w4
  hAs : ciEq m.kAs "AS".toList = true
  hw5 : spaceRun m.w5
  hg4 : m.g4 ≠ []
  hg4w : ∀ c ∈ m.g4, isWordB c = true


/-! ### Quote-structure characterisation of matches -/

/-- No quote character occurs. -/
def quoteFree (l : List Char) : Prop := ∀ c ∈ l, c ≠ qc

/-- Shape of group 1: `LOAD\s+CSV(?:\s+WITH\s+HEADERS)?\s+FROM\s+`. -/
def pfxShape (a : List Char) : Prop :=
  ∃ kL w1 kC opt w2 kF w3,
    a = kL ++ w1 ++ kC ++ optText opt ++ w2 ++ kF ++ w3 ∧
    ciEq kL "LOAD".toList = true ∧ spaceRun w1 ∧
    ciEq kC "CSV".toList = true ∧ WFopt opt ∧ spaceRun w2 ∧
    ciEq kF "FROM".toList = true ∧ spaceRun w3

/-- Shape of the quoted reference body: `file:/` (case-insensitive) followed
    by a nonempty remainder. -/
def litShape (x : List Char) : Prop :=
  ∃ lit g2, x = lit ++ g2 ∧ ciEq lit "file:/".toList = true ∧ g2 ≠ []

/-- Shape of `\s+AS\s+\w+`. -/
def shapeCore (S : List Char) : Prop :=
  ∃ w4 kA w5 g4,
    S = w4 ++ (kA ++ (w5 ++ g4)) ∧ spaceRun w4 ∧
    ciEq kA "AS".toList = true ∧ spaceRun w5 ∧ g4 ≠ [] ∧
    ∀ c ∈ g4, isWordB c = true

/-- Shape of everything after the closing quote: `\s+AS\s+\w+` and then a
    remainder that does not extend the `\w+` group. -/
def sfxShape (b : List Char) : Prop :=
  ∃ S r, b = S ++ r ∧ shapeCore S ∧ wordStop r

/-- The quote-form of a matching input: a quote-free group-1 shape, the first
    quote, a quote-free reference with a `file:/` head, the second quote, and
    a suffix shape. -/
def QF (s : List Char) : Prop :=
  ∃ a x b, s = a ++ qc :: (x ++ qc :: b) ∧ quoteFree a ∧ quoteFree x ∧
    pfxShape a ∧ litShape x ∧ sfxShape b


/-! ### Character-class lemmas -/

theorem isSpaceB_cases {c : Char} (h : isSpaceB c = true) :
    c = ' ' ∨ c = '\t' ∨ c = '\n' ∨ c = '\r' ∨ c = '\x0b' ∨ c = '\x0c' := by
  simp only [isSpaceB, Bool.or_eq_true, beq_iff_eq] at h
  tauto

theorem isSpaceB_lowerC_self {c : Char} (h : isSpaceB c = true) : lowerC c = c := by
  rcases isSpaceB_cases h with h | h | h | h | h | h <;> subst h <;> decide

theorem notSpace_of_ci {h x : Char} (hx : isSpaceB (lowerC x) = false)
    (hc : ciEqChar h x = true) : isSpaceB h = false := by
  by_contra hs
  rw [Bool.not_eq_false] at hs
  have h1 : lowerC h = h := isSpaceB_lowerC_self hs
  have h2 : lowerC h = lowerC x := by simpa [ciEqChar] using hc
  rw [h1] at h2
  rw [← h2] at hx
  rw [hs] at hx
  exact Bool.true_eq_false.mp hx

theorem space_ne_qc {c : Char} (h : isSpaceB c = true) : c ≠ qc := by
  rcases isSpaceB_cases h with h | h | h | h | h | h <;> subst h <;> decide

theorem word_ne_qc {c : Char} (h : isWordB c = true) : c ≠ qc := by
  intro he
  subst he
  exact absurd h (by decide)

theorem word_not_space {c : Char} (h : isWordB c = true) : isSpaceB c = false := by
  by_contra hs
  rw [Bool.not_eq_false] at hs
  rcases isSpaceB_cases hs with h' | h' | h' | h' | h' | h' <;> subst h' <;>
    exact absurd h (by decide)

theorem ci_ne_qc {h x : Char} (hx : lowerC x ≠ qc) (hc : ciEqChar h x = true) :
    h ≠ qc := by
  intro he
  subst he
  have h2 : lowerC qc = lowerC x := by simpa [ciEqChar] using hc
  have h3 : lowerC qc = qc := by decide
  rw [h3] at h2
  exact hx h2.symm

theorem ci_ne_of_lower_ne {h x y : Char} (hxy : lowerC x ≠ lowerC y)
    (hc : ciEqChar h x = true) : ciEqChar h y = false := by
  by_contra hcy
  rw [Bool.not_eq_false] at hcy
  have h1 : lowerC h = lowerC x := by simpa [ciEqChar] using hc
  have h2 : lowerC h = lowerC y := by simpa [ciEqChar] using hcy
  exact hxy (h1 ▸ h2)

/-! ### `ciEq` lemmas -/

theorem ciEq_cons {t : List Char} {x : Char} {xs : List Char}
    (h : ciEq t (x :: xs) = true) :
    ∃ h0 ts, t = h0 :: ts ∧ ciEqChar h0 x = true ∧ ciEq ts xs = true := by
  cases t with
  | nil => simp [ciEq] at h
  | cons h0 ts =>
    simp only [ciEq, Bool.and_eq_true] at h
    exact ⟨h0, ts, rfl, h.1, h.2⟩

theorem ciEq_refl (l : List Char) : ciEq l l = true := by
  induction l with
  | nil => rfl
  | cons c cs ih => simp [ciEq, ih, ciEqChar]

/-! ### `run` lemmas -/

theorem dropWhile_head_false {p : Char → Bool} :
    ∀ {l : List Char} {c : Char} {cs : List Char},
      List.dropWhile p l = c :: cs → p c = false := by
  intro l
  induction l with
  | nil => intro c cs h; simp [List.dropWhile] at h
  | cons a as ih =>
    intro c cs h
    rw [List.dropWhile_cons] at h
    by_cases hp : p a = true
    · rw [if_pos hp] at h; exact ih h
    · rw [if_neg hp] at h
      cases h
      exact Bool.not_eq_true _ ▸ hp

theorem dropWhile_nil_all {p : Char → Bool} :
    ∀ {l : List Char}, List.dropWhile p l = [] → ∀ c ∈ l, p c = true := by
  intro l
  induction l with
  | nil => intro _ c hc; cases hc
  | cons a as ih =>
    intro h c hc
    rw [List.dropWhile_cons] at h
    by_cases hp : p a = true
    · rw [if_pos hp] at h
      rcases List.mem_cons.mp hc with rfl | hc
      · exact hp
      · exact ih h c hc
    · rw [if_neg hp] at h; cases h

theorem run_sound {p : Char → Bool} {l t r : List Char}
    (h : run p l = some (t, r)) :
    l = t ++ r ∧ t ≠ [] ∧ (∀ c ∈ t, p c = true) ∧
      (∀ c cs, r = c :: cs → p c = false) := by
  simp only [run] at h
  by_cases he : (l.takeWhile p).isEmpty = true
  · rw [if_pos he] at h; cases h
  · rw [if_neg he] at h
    injection h with h'
    injection h' with h1 h2
    subst h1; subst h2
    refine ⟨(List.takeWhile_append_dropWhile (p := p) (l := l)).symm, ?_, ?_, ?_⟩
    · intro hnil; rw [hnil] at he; exact he rfl
    · intro c hc; exact List.mem_takeWhile_imp hc
    · intro c cs hr; exact dropWhile_head_false hr

theorem takeWhile_app {p : Char → Bool} {t : List Char} (r : List Char)
    (h1 : ∀ c ∈ t, p c = true) :
    (t ++ r).takeWhile p = t ++ r.takeWhile p := by
  induction t with
  | nil => simp
  | cons a as ih =>
    have ha : p a = true := h1 a (List.mem_cons_self a as)
    simp only [List.cons_append, List.takeWhile_cons, ha, if_true]
    rw [ih (fun c hc => h1 c (List.mem_cons_of_mem a hc))]

theorem dropWhile_app {p : Char → Bool} {t : List Char} (r : List Char)
    (h1 : ∀ c ∈ t, p c = true) :
    (t ++ r).dropWhile p = r.dropWhile p := by
  induction t with
  | nil => simp
  | cons a as ih =>
    have ha : p a = true := h1 a (List.mem_cons_self a as)
    simp only [List.cons_append, List.dropWhile_cons, ha, if_true]
    exact ih (fun c hc => h1 c (List.mem_cons_of_mem a hc))

theorem run_mk_ext {p : Char → Bool} {t : List Char} (r : List Char)
    (h1 : ∀ c ∈ t, p c = true) (h2 : t ≠ []) :
    run p (t ++ r) = some (t ++ r.takeWhile p, r.dropWhile p) := by
  have hne : (t ++ r.takeWhile p).isEmpty ≠ true := by
    intro he
    rw [List.isEmpty_iff] at he
    exact h2 (List.append_eq_nil.mp he).1
  simp only [run, takeWhile_app r h1, dropWhile_app r h1, if_neg hne]

theorem takeWhile_stop {p : Char → Bool} {r : List Char}
    (h : ∀ c cs, r = c :: cs → p c = false) :
    r.takeWhile p = [] ∧ r.dropWhile p = r := by
  cases r with
  | nil => simp
  | cons c cs =>
    have hc : p c = false := h c cs rfl
    simp [List.takeWhile_cons, List.dropWhile_cons, hc]

theorem run_mk {p : Char → Bool} {t : List Char} (r : List Char)
    (h1 : ∀ c ∈ t, p c = true) (h2 : t ≠ [])
    (h3 : ∀ c cs, r = c :: cs → p c = false) :
    run p (t ++ r) = some (t, r) := by
  rw [run_mk_ext r h1 h2, (takeWhile_stop h3).1, (takeWhile_stop h3).2,
    List.append_nil]

/-! ### `dropLit` lemmas -/

theorem dropLit_sound :
    ∀ {lit l t r : List Char}, dropLit lit l = some (t, r) →
      l = t ++ r ∧ ciEq t lit = true := by
  intro lit
  induction lit with
  | nil =>
    intro l t r h
    unfold dropLit at h
    injection h with h'
    injection h' with h1 h2
    subst h1; subst h2
    exact ⟨rfl, rfl⟩
  | cons a as ih =>
    intro l t r h
    cases l with
    | nil => simp [dropLit] at h
    | cons c cs =>
      unfold dropLit at h
      by_cases hc : ciEqChar c a = true
      · rw [if_pos hc] at h
        cases hd : dropLit as cs with
        | none => rw [hd] at h; cases h
        | some pr =>
          rw [hd] at h
          injection h with h'
          injection h' with h1 h2
          subst h1; subst h2
          obtain ⟨he, hci⟩ := ih hd
          constructor
          · rw [List.cons_append, ← he]
          · simp [ciEq, hc, hci]
      · rw [if_neg hc] at h; cases h

theorem dropLit_mk :
    ∀ {lit t : List Char} (r : List Char), ciEq t lit = true →
      dropLit lit (t ++ r) = some (t, r) := by
  intro lit
  induction lit with
  | nil =>
    intro t r h
    cases t with
    | nil => rfl
    | cons c cs => simp [ciEq] at h
  | cons a as ih =>
    intro t r h
    obtain ⟨h0, ts, rfl, hc, hrest⟩ := ciEq_cons h
    simp only [List.cons_append]
    unfold dropLit
    rw [if_pos hc, ih r hrest]
    rfl

/-! ### Head-stop helpers -/

theorem stop_of_head {P : Char → Bool} {k : List Char} (rest : List Char)
    (hk : ∃ h0 ts, k = h0 :: ts ∧ P h0 = false) :
    ∀ c cs, (k ++ rest) = c :: cs → P c = false := by
  obtain ⟨h0, ts, rfl, hP⟩ := hk
  intro c cs h
  rw [List.cons_append] at h
  injection h with h1 _
  subst h1
  exact hP

theorem head_ci_notSpace {k : List Char} {x : Char} {xs : List Char}
    (h : ciEq k (x :: xs) = true) (hx : isSpaceB (lowerC x) = false) :
    ∃ h0 ts, k = h0 :: ts ∧ isSpaceB h0 = false := by
  obtain ⟨h0, ts, rfl, hc, _⟩ := ciEq_cons h
  exact ⟨h0, ts, rfl, notSpace_of_ci hx hc⟩

theorem head_word_notSpace {g : List Char} (hne : g ≠ [])
    (hw : ∀ c ∈ g, isWordB c = true) :
    ∃ h0 ts, g = h0 :: ts ∧ isSpaceB h0 = false := by
  cases g with
  | nil => exact absurd rfl hne
  | cons h0 ts =>
    exact ⟨h0, ts, rfl, word_not_space (hw h0 (List.mem_cons_self h0 ts))⟩

theorem stop_qc_space {Z : List Char} :
    ∀ c cs, (qc :: Z) = c :: cs → isSpaceB c = false := by
  intro c cs h
  injection h with h1 _
  subst h1
  decide

theorem stop_qc_notQuote {Z : List Char} :
    ∀ c cs, (qc :: Z) = c :: cs → isNotQuote c = false := by
  intro c cs h
  injection h with h1 _
  subst h1
  decide

theorem dropLit_head_false {a : Char} {as : List Char} {c : Char}
    {cs : List Char} (h : ciEqChar c a = false) :
    dropLit (a :: as) (c :: cs) = none := by
  unfold dropLit
  rw [if_neg (by rw [h]; exact Bool.false_ne_true)]

/-! ### Reconstruction: the matcher accepts well-formed assembled pieces -/

theorem matchFrom_mk (kL w1 kC : List Char)
    (opt : Option (List Char × List Char × List Char × List Char))
    {w2 kF w3 lit g2 w4 kA w5 g4 : List Char} (rest : List Char)
    (hw2 : spaceRun w2) (hkF : ciEq kF "FROM".toList = true)
    (hw3 : spaceRun w3) (hlit : ciEq lit "file:/".toList = true)
    (hg2 : g2 ≠ []) (hg2q : ∀ c ∈ g2, c ≠ qc)
    (hw4 : spaceRun w4) (hkA : ciEq kA "AS".toList = true)
    (hw5 : spaceRun w5) (hg4 : g4 ≠ []) (hg4w : ∀ c ∈ g4, isWordB c = true) :
    matchFrom kL w1 kC opt
        (w2 ++ (kF ++ (w3 ++ qc ::
          (lit ++ (g2 ++ qc :: (w4 ++ (kA ++ (w5 ++ (g4 ++ rest))))))))) =
      some (⟨kL, w1, kC, opt, w2, kF, w3, lit, g2, w4, kA, w5,
              g4 ++ rest.takeWhile isWordB⟩, rest.dropWhile isWordB) := by
  have hg2' : ∀ c ∈ g2, isNotQuote c = true := by
    intro c hc
    simpa [isNotQuote, bne_iff_ne] using hg2q c hc
  unfold matchFrom
  rw [run_mk _ hw2.2 hw2.1
    (stop_of_head _ (head_ci_notSpace hkF (by decide)))]
  simp only [Option.some_bind]
  rw [dropLit_mk _ hkF]
  simp only [Option.some_bind]
  rw [run_mk _ hw3.2 hw3.1 stop_qc_space]
  simp only [Option.some_bind, if_pos rfl]
  rw [dropLit_mk _ hlit]
  simp only [Option.some_bind]
  rw [run_mk _ hg2' hg2 stop_qc_notQuote]
  simp only [Option.some_bind, if_pos rfl]
  rw [run_mk _ hw4.2 hw4.1
    (stop_of_head _ (head_ci_notSpace hkA (by decide)))]
  simp only [Option.some_bind]
  rw [dropLit_mk _ hkA]
  simp only [Option.some_bind]
  rw [run_mk _ hw5.2 hw5.1
    (stop_of_head _ (head_word_notSpace hg4 hg4w))]
  simp only [Option.some_bind]
  rw [run_mk_ext _ hg4w hg4]
  rfl

theorem matchAt_mk (m : LoadMatch) (hWF : WF m) (rest : List Char) :
    matchAt (m.text ++ rest) =
      some ({m with g4 := m.g4 ++ rest.takeWhile isWordB},
            rest.dropWhile isWordB) := by
  obtain ⟨kL, w1, kC, opt, w2, kF, w3, lit, g2, w4, kA, w5, g4⟩ := m
  obtain ⟨hL, hw1, hC, hOpt, hw2, hF, hw3, hlit, hg2, hg2q, hw4, hA, hw5,
    hg4, hg4w⟩ := hWF
  simp only [LoadMatch.text, LoadMatch.g1, LoadMatch.g3] at *
  cases opt with
  | none =>
    simp only [optText, List.nil_append, List.append_nil,
      List.append_assoc, List.cons_append]
    unfold matchAt
    rw [dropLit_mk _ hL]
    simp only [Option.some_bind]
    rw [run_mk _ hw1.2 hw1.1
      (stop_of_head _ (head_ci_notSpace hC (by decide)))]
    simp only [Option.some_bind]
    rw [dropLit_mk _ hC]
    simp only [Option.some_bind]
    have hfail :
        ((run isSpaceB (w2 ++ (kF ++ (w3 ++ qc ::
            (lit ++ (g2 ++ qc :: (w4 ++ (kA ++ (w5 ++ (g4 ++ rest)))))))))).bind
          fun pa => (dropLit "WITH".toList pa.2).bind fun pW =>
            (run isSpaceB pW.2).bind fun pb =>
              (dropLit "HEADERS".toList pb.2).bind fun pH =>
                matchFrom kL w1 kC (some (pa.1, pW.1, pb.1, pH.1)) pH.2) =
          none := by
      rw [run_mk _ hw2.2 hw2.1
        (stop_of_head _ (head_ci_notSpace hF (by decide)))]
      simp only [Option.some_bind]
      obtain ⟨f0, fs, rfl, hcf, _⟩ := ciEq_cons hF
      rw [List.cons_append,
        show ("WITH".toList) = 'W' :: ['I', 'T', 'H'] from rfl,
        dropLit_head_false (ci_ne_of_lower_ne (by decide) hcf)]
      rfl
    rw [hfail]
    simp only [Option.none_orElse]
    exact matchFrom_mk kL w1 kC none rest hw2 hF hw3 hlit hg2 hg2q hw4 hA
      hw5 hg4 hg4w
  | some whp =>
    obtain ⟨wa, kW, wb, kH⟩ := whp
    obtain ⟨hwa, hkW, hwb, hkH⟩ := hOpt
    simp only [optText, List.append_assoc, List.cons_append]
    unfold matchAt
    rw [dropLit_mk _ hL]
    simp only [Option.some_bind]
    rw [run_mk _ hw1.2 hw1.1
      (stop_of_head _ (head_ci_notSpace hC (by decide)))]
    simp only [Option.some_bind]
    rw [dropLit_mk _ hC]
    simp only [Option.some_bind]
    rw [run_mk _ hwa.2 hwa.1
      (stop_of_head _ (head_ci_notSpace hkW (by decide)))]
    simp only [Option.some_bind]
    rw [dropLit_mk _ hkW]
    simp only [Option.some_bind]
    rw [run_mk _ hwb.2 hwb.1
      (stop_of_head _ (head_ci_notSpace hkH (by decide)))]
    simp only [Option.some_bind]
    rw [dropLit_mk _ hkH]
    simp only [Option.some_bind]
    rw [matchFrom_mk kL w1 kC (some (wa, kW, wb, kH)) rest hw2 hF hw3 hlit
      hg2 hg2q hw4 hA hw5 hg4 hg4w]
    rfl

/-! ### Soundness: a successful match decomposes the input -/

theorem matchFrom_sound {kL w1 kC : List Char}
    {opt : Option (List Char × List Char × List Char × List Char)}
    {s : List Char} {m : LoadMatch} {r : List Char}
    (h : matchFrom kL w1 kC opt s = some (m, r)) :
    m.kLoad = kL ∧ m.w1 = w1 ∧ m.kCsv = kC ∧ m.optWH = opt ∧
    s = m.w2 ++ (m.kFrom ++ (m.w3 ++ qc ::
      (m.lit ++ (m.g2 ++ qc :: (m.w4 ++ (m.kAs ++ (m.w5 ++ (m.g4 ++ r)))))))) ∧
    spaceRun m.w2 ∧ ciEq m.kFrom "FROM".toList = true ∧ spaceRun m.w3 ∧
    ciEq m.lit "file:/".toList = true ∧ m.g2 ≠ [] ∧ (∀ c ∈ m.g2, c ≠ qc) ∧
    spaceRun m.w4 ∧ ciEq m.kAs "AS".toList = true ∧ spaceRun m.w5 ∧
    m.g4 ≠ [] ∧ (∀ c ∈ m.g4, isWordB c = true) ∧ wordStop r := by
  unfold matchFrom at h
  rw [Option.bind_eq_some] at h
  obtain ⟨p2, hrun2, h⟩ := h
  rw [Option.bind_eq_some] at h
  obtain ⟨pF, hdropF, h⟩ := h
  rw [Option.bind_eq_some] at h
  obtain ⟨p3, hrun3, h⟩ := h
  obtain ⟨hs2, hne2, hall2, _⟩ := run_sound hrun2
  obtain ⟨hsF, hciF⟩ := dropLit_sound hdropF
  obtain ⟨hs3, hne3, hall3, _⟩ := run_sound hrun3
  split at h
  case h_2 => cases h
  case h_1 c s8 hp32 =>
    split at h
    case isFalse => cases h
    case isTrue hcq =>
      subst hcq
      rw [Option.bind_eq_some] at h
      obtain ⟨pL, hdropL, h⟩ := h
      rw [Option.bind_eq_some] at h
      obtain ⟨pG, hrunG, h⟩ := h
      obtain ⟨hsL, hciL⟩ := dropLit_sound hdropL
      obtain ⟨hsG, hneG, hallG, _⟩ := run_sound hrunG
      split at h
      case h_2 => cases h
      case h_1 c2 s11 hpG2 =>
        split at h
        case isFalse => cases h
        case isTrue hcq2 =>
          subst hcq2
          rw [Option.bind_eq_some] at h
          obtain ⟨p4, hrun4, h⟩ := h
          rw [Option.bind_eq_some] at h
          obtain ⟨pA, hdropA, h⟩ := h
          rw [Option.bind_eq_some] at h
          obtain ⟨p5, hrun5, h⟩ := h
          rw [Option.map_eq_some'] at h
          obtain ⟨pV, hrunV, h⟩ := h
          obtain ⟨hs4, hne4, hall4, _⟩ := run_sound hrun4
          obtain ⟨hsA, hciA⟩ := dropLit_sound hdropA
          obtain ⟨hs5, hne5, hall5, _⟩ := run_sound hrun5
          obtain ⟨hsV, hneV, hallV, hstopV⟩ := run_sound hrunV
          simp only [Prod.mk.injEq] at h
          obtain ⟨hm, hr⟩ := h
          subst hm
          subst hr
          refine ⟨rfl, rfl, rfl, rfl, ?_, ⟨hne2, hall2⟩, hciF, ⟨hne3, hall3⟩,
            hciL, hneG, ?_, ⟨hne4, hall4⟩, hciA, ⟨hne5, hall5⟩, hneV, hallV,
            ?_⟩
          · rw [hs2, hsF, hs3, hp32, hsL, hsG, hpG2, hs4, hsA, hs5, hsV]
          · intro c hc
            have := hallG c hc
            simpa [isNotQuote, bne_iff_ne] using this
          · intro c cs hr
            exact hstopV c cs hr

theorem matchAt_sound {s : List Char} {m : LoadMatch} {r : List Char}
    (h : matchAt s = some (m, r)) :
    s = m.text ++ r ∧ WF m ∧ wordStop r := by
  unfold matchAt at h
  rw [Option.bind_eq_some] at h
  obtain ⟨pL, hdropL, h⟩ := h
  rw [Option.bind_eq_some] at h
  obtain ⟨p1, hrun1, h⟩ := h
  rw [Option.bind_eq_some] at h
  obtain ⟨pC, hdropC, h⟩ := h
  obtain ⟨hsL, hciL⟩ := dropLit_sound hdropL
  obtain ⟨hs1, hne1, hall1, _⟩ := run_sound hrun1
  obtain ⟨hsC, hciC⟩ := dropLit_sound hdropC
  simp only [HOrElse.hOrElse, OrElse.orElse, Option.orElse] at h
  cases hA : ((run isSpaceB pC.2).bind fun pa =>
      (dropLit "WITH".toList pa.2).bind fun pW =>
        (run isSpaceB pW.2).bind fun pb =>
          (dropLit "HEADERS".toList pb.2).bind fun pH =>
            matchFrom pL.1 p1.1 pC.1 (some (pa.1, pW.1, pb.1, pH.1)) pH.2) with
  | some v =>
    rw [hA] at h
    simp only at h
    injection h with hv
    subst hv
    rw [Option.bind_eq_some] at hA
    obtain ⟨pa, hruna, hA⟩ := hA
    rw [Option.bind_eq_some] at hA
    obtain ⟨pW, hdropW, hA⟩ := hA
    rw [Option.bind_eq_some] at hA
    obtain ⟨pb, hrunb, hA⟩ := hA
    rw [Option.bind_eq_some] at hA
    obtain ⟨pH, hdropH, hA⟩ := hA
    obtain ⟨hsa, hnea, halla, _⟩ := run_sound hruna
    obtain ⟨hsW, hciW⟩ := dropLit_sound hdropW
    obtain ⟨hsb, hneb, hallb, _⟩ := run_sound hrunb
    obtain ⟨hsH, hciH⟩ := dropLit_sound hdropH
    obtain ⟨e1, e2, e3, e4, e5, f1, f2, f3, f4, f5, f6, f7, f8, f9, f10,
      f11, f12⟩ := matchFrom_sound hA
    refine ⟨?_, ?_, f12⟩
    · rw [hsL, hs1, hsC, hsa, hsW, hsb, hsH, e5]
      simp only [LoadMatch.text, LoadMatch.g1, LoadMatch.g3, e1, e2, e3, e4,
        optText, List.append_assoc, List.cons_append]
    · refine ⟨?_, ?_, ?_, ?_, f1, f2, f3, f4, f5, f6, f7, f8, f9, f10, f11⟩
      · rw [e1]; exact hciL
      · rw [e2]; exact ⟨hne1, hall1⟩
      · rw [e3]; exact hciC
      · rw [e4]; exact ⟨⟨hnea, halla⟩, hciW, ⟨hneb, hallb⟩, hciH⟩
  | none =>
    rw [hA] at h
    simp only at h
    obtain ⟨e1, e2, e3, e4, e5, f1, f2, f3, f4, f5, f6, f7, f8, f9, f10,
      f11, f12⟩ := matchFrom_sound h
    refine ⟨?_, ?_, f12⟩
    · rw [hsL, hs1, hsC, e5]
      simp only [LoadMatch.text, LoadMatch.g1, LoadMatch.g3, e1, e2, e3, e4,
        optText, List.append_assoc, List.cons_append, List.append_nil,
        List.nil_append]
    · refine ⟨?_, ?_, ?_, ?_, f1, f2, f3, f4, f5, f6, f7, f8, f9, f10, f11⟩
      · rw [e1]; exact hciL
      · rw [e2]; exact ⟨hne1, hall1⟩
      · rw [e3]; exact hciC
      · rw [e4]; trivial

/-! ### `searchSplit` lemmas -/

theorem matchAt_nil : matchAt [] = none := rfl

theorem searchSplit_sound :
    ∀ {s p : List Char} {m : LoadMatch} {r : List Char},
      searchSplit s = some (p, m, r) →
      s = p ++ (m.text ++ r) ∧ matchAt (m.text ++ r) = some (m, r) ∧
        ∀ a b, s = a ++ b → a.length < p.length → matchAt b = none := by
  intro s
  induction s with
  | nil =>
    intro p m r h
    rw [show searchSplit [] = none from rfl] at h
    cases h
  | cons c cs ih =>
    intro p m r h
    unfold searchSplit at h
    cases hm : matchAt (c :: cs) with
    | some v =>
      rw [hm] at h
      simp only at h
      obtain ⟨m0, r0⟩ := v
      simp only [Option.some.injEq, Prod.mk.injEq] at h
      obtain ⟨hp, hm1, hr⟩ := h
      subst hp; subst hm1; subst hr
      obtain ⟨hdec, _, _⟩ := matchAt_sound hm
      refine ⟨by simpa using hdec, by rw [← hdec]; exact hm, ?_⟩
      intro a b _ hlen
      simp at hlen
    | none =>
      rw [hm] at h
      simp only [Option.map_eq_some'] at h
      obtain ⟨t, ht, hteq⟩ := h
      obtain ⟨t1, t2, t3⟩ := t
      simp only [Prod.mk.injEq] at hteq
      obtain ⟨hp, hm1, hr⟩ := hteq
      subst hp; subst hm1; subst hr
      obtain ⟨ih1, ih2, ih3⟩ := ih ht
      refine ⟨by rw [List.cons_append, ← ih1], ih2, ?_⟩
      intro a b hab hlen
      cases a with
      | nil =>
        simp only [List.nil_append] at hab
        rw [← hab]
        exact hm
      | cons a0 a' =>
        rw [List.cons_append] at hab
        injection hab with h1 h2
        subst h1
        exact ih3 a' b h2 (by simpa using hlen)

theorem searchSplit_mk :
    ∀ (p : List Char) {t : List Char} {m : LoadMatch} {r : List Char},
      matchAt t = some (m, r) →
      (∀ a b, p ++ t = a ++ b → a.length < p.length → matchAt b = none) →
      searchSplit (p ++ t) = some (p, m, r) := by
  intro p
  induction p with
  | nil =>
    intro t m r h _
    rw [List.nil_append]
    cases t with
    | nil => rw [matchAt_nil] at h; cases h
    | cons c cs => unfold searchSplit; rw [h]
  | cons c p' ih =>
    intro t m r h hearly
    have hnone : matchAt (c :: (p' ++ t)) = none := by
      refine hearly [] (c :: (p' ++ t)) rfl ?_
      simp
    rw [List.cons_append]
    unfold searchSplit
    rw [hnone]
    have := ih h (fun a b hab hlen =>
      hearly (c :: a) b (by rw [List.cons_append, hab, List.cons_append])
        (by simpa using Nat.succ_lt_succ hlen))
    rw [this]
    rfl

theorem searchSplit_isSome_mk :
    ∀ (p : List Char) {t : List Char} {m : LoadMatch} {r : List Char},
      matchAt t = some (m, r) → (searchSplit (p ++ t)).isSome = true := by
  intro p
  induction p with
  | nil =>
    intro t m r h
    rw [List.nil_append]
    cases t with
    | nil => rw [matchAt_nil] at h; cases h
    | cons c cs => unfold searchSplit; rw [h]; rfl
  | cons c p' ih =>
    intro t m r h
    rw [List.cons_append]
    unfold searchSplit
    cases hm : matchAt (c :: (p' ++ t)) with
    | some v => rfl
    | none =>
      have hh := ih h
      cases hs : searchSplit (p' ++ t) with
      | none => rw [hs] at hh; simp at hh
      | some v => rfl

theorem quoteFree_append {a b : List Char} (ha : quoteFree a)
    (hb : quoteFree b) : quoteFree (a ++ b) := by
  intro c hc
  rcases List.mem_append.mp hc with h | h
  · exact ha c h
  · exact hb c h

theorem ciEq_quoteFree {t lit : List Char} (h : ciEq t lit = true)
    (hl : ∀ c ∈ lit, lowerC c ≠ qc) : quoteFree t := by
  induction lit generalizing t with
  | nil =>
    cases t with
    | nil => intro c hc; cases hc
    | cons c cs => simp [ciEq] at h
  | cons x xs ih =>
    obtain ⟨h0, ts, rfl, hc, hrest⟩ := ciEq_cons h
    intro c hcm
    rcases List.mem_cons.mp hcm with rfl | hcm
    · exact ci_ne_qc (hl x (List.mem_cons_self x xs)) hc
    · exact ih hrest (fun d hd => hl d (List.mem_cons_of_mem x hd)) c hcm

theorem spaceRun_quoteFree {w : List Char} (h : spaceRun w) : quoteFree w :=
  fun c hc => space_ne_qc (h.2 c hc)

theorem spaceRun_head {w : List Char} (h : spaceRun w) :
    ∃ c cs, w = c :: cs ∧ isSpaceB c = true := by
  obtain ⟨hne, hall⟩ := h
  cases w with
  | nil => exact absurd rfl hne
  | cons c cs => exact ⟨c, cs, rfl, hall c (List.mem_cons_self c cs)⟩

theorem WFopt_quoteFree {opt : Option (List Char × List Char × List Char ×
    List Char)} (h : WFopt opt) : quoteFree (optText opt) := by
  cases opt with
  | none => intro c hc; cases hc
  | some whp =>
    obtain ⟨wa, kW, wb, kH⟩ := whp
    obtain ⟨hwa, hkW, hwb, hkH⟩ := h
    exact quoteFree_append (quoteFree_append (quoteFree_append
      (spaceRun_quoteFree hwa) (ciEq_quoteFree hkW (by decide)))
      (spaceRun_quoteFree hwb)) (ciEq_quoteFree hkH (by decide))

theorem pfxShape_quoteFree {a : List Char} (h : pfxShape a) : quoteFree a := by
  obtain ⟨kL, w1, kC, opt, w2, kF, w3, rfl, hL, hw1, hC, hOpt, hw2, hF,
    hw3⟩ := h
  exact quoteFree_append (quoteFree_append (quoteFree_append
    (quoteFree_append (quoteFree_append (quoteFree_append
      (ciEq_quoteFree hL (by decide)) (spaceRun_quoteFree hw1))
      (ciEq_quoteFree hC (by decide))) (WFopt_quoteFree hOpt))
    (spaceRun_quoteFree hw2)) (ciEq_quoteFree hF (by decide)))
    (spaceRun_quoteFree hw3)

theorem shapeCore_quoteFree {S : List Char} (h : shapeCore S) :
    quoteFree S := by
  obtain ⟨w4, kA, w5, g4, rfl, hw4, hkA, hw5, hg4, hg4w⟩ := h
  exact quoteFree_append (spaceRun_quoteFree hw4)
    (quoteFree_append (ciEq_quoteFree hkA (by decide))
      (quoteFree_append (spaceRun_quoteFree hw5)
        (fun c hc => word_ne_qc (hg4w c hc))))

theorem sfxShape_head {t : List Char} (h : sfxShape t) :
    ∃ c cs, t = c :: cs ∧ isSpaceB c = true := by
  obtain ⟨S, r, rfl, hS, _⟩ := h
  obtain ⟨w4, kA, w5, g4, rfl, hw4, _, _, _, _⟩ := hS
  obtain ⟨c, cs, rfl, hc⟩ := spaceRun_head hw4
  exact ⟨c, cs ++ (kA ++ (w5 ++ g4)) ++ r, by simp, hc⟩

theorem litShape_head {x : List Char} (h : litShape x) :
    ∃ c cs, x = c :: cs ∧ isSpaceB c = false := by
  obtain ⟨lit, g2, rfl, hlit, _⟩ := h
  obtain ⟨h0, ts, rfl, hc, _⟩ := ciEq_cons hlit
  exact ⟨h0, ts ++ g2, rfl, notSpace_of_ci (by decide) hc⟩

/-! ### First-quote surgery -/

theorem quoteFree_unique :
    ∀ {x b y c : List Char}, x ++ qc :: b = y ++ qc :: c →
      quoteFree x → quoteFree y → x = y ∧ b = c := by
  intro x
  induction x with
  | nil =>
    intro b y c h hx hy
    cases y with
    | nil =>
      simp only [List.nil_append] at h
      injection h with _ h2
      exact ⟨rfl, h2⟩
    | cons y0 y' =>
      simp only [List.nil_append, List.cons_append] at h
      injection h with h1 _
      exact absurd h1.symm (hy y0 (List.mem_cons_self y0 y'))
  | cons x0 x' ih =>
    intro b y c h hx hy
    cases y with
    | nil =>
      simp only [List.nil_append, List.cons_append] at h
      injection h with h1 _
      exact absurd h1 (hx x0 (List.mem_cons_self x0 x'))
    | cons y0 y' =>
      simp only [List.cons_append] at h
      injection h with h1 h2
      subst h1
      obtain ⟨hxy, hbc⟩ := ih h2 (fun d hd => hx d (List.mem_cons_of_mem x0 hd))
        (fun d hd => hy d (List.mem_cons_of_mem x0 hd))
      exact ⟨by rw [hxy], hbc⟩

theorem quote_split (l : List Char) :
    quoteFree l ∨ ∃ C D, l = C ++ qc :: D ∧ quoteFree C := by
  induction l with
  | nil => exact Or.inl (fun c hc => absurd hc (List.not_mem_nil c))
  | cons c cs ih =>
    by_cases hc : c = qc
    · subst hc
      exact Or.inr ⟨[], cs, rfl, fun d hd => absurd hd (List.not_mem_nil d)⟩
    · rcases ih with h | ⟨C, D, rfl, hqC⟩
      · refine Or.inl ?_
        intro d hd
        rcases List.mem_cons.mp hd with rfl | hd
        · exact hc
        · exact h d hd
      · refine Or.inr ⟨c :: C, D, by simp, ?_⟩
        intro d hd
        rcases List.mem_cons.mp hd with rfl | hd
        · exact hc
        · exact hqC d hd

theorem append_split_qc :
    ∀ {C A B D : List Char}, A ++ qc :: B = C ++ D → quoteFree C →
      ∃ E, A = C ++ E ∧ D = E ++ qc :: B := by
  intro C
  induction C with
  | nil =>
    intro A B D h _
    exact ⟨A, by simp, by simpa using h.symm⟩
  | cons c0 C' ih =>
    intro A B D h hq
    cases A with
    | nil =>
      simp only [List.nil_append, List.cons_append] at h
      injection h with h1 _
      exact absurd h1 (hq c0 (List.mem_cons_self c0 C')).symm
    | cons a0 A' =>
      simp only [List.cons_append] at h
      injection h with h1 h2
      subst h1
      obtain ⟨E, hE1, hE2⟩ := ih h2
        (fun d hd => hq d (List.mem_cons_of_mem a0 hd))
      exact ⟨E, by rw [List.cons_append, hE1], hE2⟩

theorem wordStop_qc {Z : List Char} : wordStop (qc :: Z) := by
  intro c cs h
  injection h with h1 _
  subst h1
  decide

theorem sfx_swap {u v w : List Char} (h : sfxShape (u ++ qc :: v)) :
    sfxShape (u ++ qc :: w) := by
  obtain ⟨S, r, heq, hS, hr⟩ := h
  obtain ⟨E, hE1, hE2⟩ := append_split_qc heq (shapeCore_quoteFree hS)
  subst hE1
  refine ⟨S, E ++ qc :: w, by simp, hS, ?_⟩
  cases E with
  | nil => exact wordStop_qc
  | cons e E' =>
    intro c cs hc
    rw [List.cons_append] at hc
    injection hc with h1 _
    subst h1
    have h3 : r = e :: (E' ++ qc :: v) := by rw [hE2, List.cons_append]
    exact hr e (E' ++ qc :: v) h3

theorem matchAt_isSome_iff {s : List Char} :
    (matchAt s).isSome = true ↔ QF s := by
  constructor
  · intro h
    cases hm : matchAt s with
    | none => rw [hm] at h; simp at h
    | some v =>
      obtain ⟨m, r⟩ := v
      obtain ⟨hdec, hWF, hstop⟩ := matchAt_sound hm
      refine ⟨m.g1, m.lit ++ m.g2, m.g3 ++ r, ?_, ?_, ?_, ?_, ?_, ?_⟩
      · rw [hdec]
        simp [LoadMatch.text, List.append_assoc, List.cons_append]
      · exact pfxShape_quoteFree ⟨m.kLoad, m.w1, m.kCsv, m.optWH, m.w2,
          m.kFrom, m.w3, rfl, hWF.hLoad, hWF.hw1, hWF.hCsv, hWF.hOpt,
          hWF.hw2, hWF.hFrom, hWF.hw3⟩
      · exact quoteFree_append (ciEq_quoteFree hWF.hLit (by decide)) hWF.hg2q
      · exact ⟨m.kLoad, m.w1, m.kCsv, m.optWH, m.w2, m.kFrom, m.w3, rfl,
          hWF.hLoad, hWF.hw1, hWF.hCsv, hWF.hOpt, hWF.hw2, hWF.hFrom,
          hWF.hw3⟩
      · exact ⟨m.lit, m.g2, rfl, hWF.hLit, hWF.hg2⟩
      · exact ⟨m.g3, r, rfl,
          ⟨m.w4, m.kAs, m.w5, m.g4,
            by simp [LoadMatch.g3, List.append_assoc],
            hWF.hw4, hWF.hAs, hWF.hw5, hWF.hg4, hWF.hg4w⟩, hstop⟩
  · intro h
    obtain ⟨a, x, b, heq, hqa, hqx, hpfx, hlitx, hsfx⟩ := h
    obtain ⟨kL, w1, kC, opt, w2, kF, w3, haeq, hL, hw1, hC, hOpt, hw2, hF,
      hw3⟩ := hpfx
    obtain ⟨lit, g2, hxeq, hlit, hg2⟩ := hlitx
    obtain ⟨S, r, hbeq, hS, hr⟩ := hsfx
    obtain ⟨w4, kA, w5, g4, hSeq, hw4, hkA, hw5, hg4, hg4w⟩ := hS
    have hg2q : ∀ c ∈ g2, c ≠ qc := by
      intro c hc
      exact hqx c (by rw [hxeq]; exact List.mem_append_right lit hc)
    have hWF : WF ⟨kL, w1, kC, opt, w2, kF, w3, lit, g2, w4, kA, w5, g4⟩ :=
      ⟨hL, hw1, hC, hOpt, hw2, hF, hw3, hlit, hg2, hg2q, hw4, hkA, hw5,
        hg4, hg4w⟩
    have hs : s =
        LoadMatch.text ⟨kL, w1, kC, opt, w2, kF, w3, lit, g2, w4, kA, w5,
          g4⟩ ++ r := by
      rw [heq, haeq, hxeq, hbeq, hSeq]
      simp [LoadMatch.text, LoadMatch.g1, LoadMatch.g3, List.append_assoc,
        List.cons_append]
    rw [hs, matchAt_mk _ hWF r]
    rfl

theorem QF_swap_dir {A X Y B : List Char}
    (hqX : quoteFree X) (hlX : litShape X)
    (hqY : quoteFree Y) (hlY : litShape Y)
    (h : QF (A ++ qc :: (X ++ qc :: B))) : QF (A ++ qc :: (Y ++ qc :: B)) := by
  obtain ⟨a, x, b, heq, hqa, hqx, hpfx, hlitx, hsfx⟩ := h
  rcases quote_split A with hA | ⟨C, D, rfl, hqC⟩
  · obtain ⟨h1, h2⟩ := quoteFree_unique heq hA hqa
    subst h1
    obtain ⟨h3, h4⟩ := quoteFree_unique h2 hqX hqx
    subst h3
    subst h4
    exact ⟨A, Y, B, rfl, hA, hqY, hpfx, hlY, hsfx⟩
  · have heq2 : C ++ qc :: (D ++ qc :: (X ++ qc :: B)) =
        a ++ qc :: (x ++ qc :: b) := by
      rw [← heq]; simp [List.append_assoc, List.cons_append]
    obtain ⟨h1, h2⟩ := quoteFree_unique heq2 hqC hqa
    subst h1
    rcases quote_split D with hD | ⟨C2, D2, rfl, hqC2⟩
    · obtain ⟨h3, h4⟩ := quoteFree_unique h2 hD hqx
      subst h4
      obtain ⟨c, cs, hbc, hcsp⟩ := sfxShape_head hsfx
      obtain ⟨c', cs', hXc, hcnsp⟩ := litShape_head hlX
      rw [hXc, List.cons_append] at hbc
      injection hbc with h5 _
      rw [← h5] at hcsp
      rw [hcsp] at hcnsp
      cases hcnsp
    · have h2' : C2 ++ qc :: (D2 ++ qc :: (X ++ qc :: B)) = x ++ qc :: b := by
        rw [← h2]; simp [List.append_assoc, List.cons_append]
      obtain ⟨h3, h4⟩ := quoteFree_unique h2' hqC2 hqx
      subst h3
      subst h4
      refine ⟨C, C2, D2 ++ qc :: (Y ++ qc :: B), ?_, hqC, hqC2, hpfx, hlitx,
        sfx_swap hsfx⟩
      simp [List.append_assoc, List.cons_append]

theorem matchAt_none_swap {A X Y B : List Char}
    (hqX : quoteFree X) (hlX : litShape X)
    (hqY : quoteFree Y) (hlY : litShape Y)
    (h : matchAt (A ++ qc :: (X ++ qc :: B)) = none) :
    matchAt (A ++ qc :: (Y ++ qc :: B)) = none := by
  cases hm : matchAt (A ++ qc :: (Y ++ qc :: B)) with
  | none => rfl
  | some v =>
    have hq : QF (A ++ qc :: (Y ++ qc :: B)) :=
      matchAt_isSome_iff.mp (by rw [hm]; rfl)
    have hq2 : QF (A ++ qc :: (X ++ qc :: B)) :=
      QF_swap_dir hqY hlY hqX hlX hq
    have := matchAt_isSome_iff.mpr hq2
    rw [h] at this
    cases this

/-! ### Glue lemmas for the rewrite step -/

theorem splitSlash_subset :
    ∀ {l : List Char} {s : List Char}, s ∈ splitSlash l → ∀ c ∈ s, c ∈ l := by
  intro l
  induction l with
  | nil =>
    intro s hs c hc
    simp only [splitSlash, List.mem_singleton] at hs
    subst hs
    cases hc
  | cons c0 cs ih =>
    intro s hs c hc
    simp only [splitSlash] at hs
    by_cases h0 : c0 = '/'
    · rw [if_pos h0] at hs
      rcases List.mem_cons.mp hs with rfl | hs
      · cases hc
      · exact List.mem_cons_of_mem c0 (ih hs c hc)
    · rw [if_neg h0] at hs
      cases hr : splitSlash cs with
      | nil =>
        rw [hr] at hs
        simp only [List.mem_singleton] at hs
        subst hs
        have h1 := List.mem_singleton.mp hc
        subst h1
        exact List.mem_cons_self _ _
      | cons h t =>
        rw [hr] at hs
        rcases List.mem_cons.mp hs with rfl | hs
        · rcases List.mem_cons.mp hc with rfl | hc
          · exact List.mem_cons_self c cs
          · exact List.mem_cons_of_mem c0
              (ih (hr ▸ List.mem_cons_self h t) c hc)
        · exact List.mem_cons_of_mem c0
            (ih (hr ▸ List.mem_cons_of_mem h hs) c hc)

theorem pathName_subset {l : List Char} : ∀ c ∈ pathName l, c ∈ l := by
  intro c hc
  unfold pathName at hc
  cases hg : ((splitSlash l).filter (fun s => !s.isEmpty && s != ['.'])).getLast? with
  | none => rw [hg] at hc; cases hc
  | some seg =>
    rw [hg] at hc
    have hmem : seg ∈ ((splitSlash l).filter
        (fun s => !s.isEmpty && s != ['.'])).getLast? :=
      Option.mem_def.mpr hg
    obtain ⟨hne, heq⟩ := List.mem_getLast?_eq_getLast hmem
    have hseg : seg ∈ (splitSlash l).filter
        (fun s => !s.isEmpty && s != ['.']) := by
      rw [heq]
      exact List.getLast_mem hne
    exact splitSlash_subset (List.mem_of_mem_filter hseg) c hc

theorem pathName_quoteFree {l : List Char} (h : ∀ c ∈ l, c ≠ qc) :
    ∀ c ∈ pathName l, c ≠ qc :=
  fun c hc => h c (pathName_subset c hc)

theorem stripList_nil_all {l : List Char} (h : stripList l = []) :
    ∀ c ∈ l, isSpaceB c = true := by
  unfold stripList at h
  rw [List.reverse_eq_nil_iff] at h
  have h2 : ∀ c ∈ (l.dropWhile isSpaceB).reverse, isSpaceB c = true :=
    dropWhile_nil_all h
  have h3 : ∀ c ∈ l.dropWhile isSpaceB, isSpaceB c = true := by
    intro c hc
    exact h2 c (List.mem_reverse.mpr hc)
  intro c hc
  rw [← List.takeWhile_append_dropWhile (p := isSpaceB) (l := l)] at hc
  rcases List.mem_append.mp hc with hc | hc
  · exact List.mem_takeWhile_imp hc
  · exact h3 c hc

theorem subFirst_eq {content repl p : List Char} {m : LoadMatch}
    {r : List Char} (h : searchSplit content = some (p, m, r)) :
    subFirst content repl = p ++ (repl ++ r) := by
  unfold subFirst
  rw [h]
  show p ++ repl ++ r = p ++ (repl ++ r)
  rw [List.append_assoc]

theorem matchAt_mk_stop (m : LoadMatch) (hWF : WF m) {r : List Char}
    (hr : wordStop r) : matchAt (m.text ++ r) = some (m, r) := by
  have h := matchAt_mk m hWF r
  rw [(takeWhile_stop hr).1, (takeWhile_stop hr).2, List.append_nil] at h
  exact h

theorem append_split_of_le :
    ∀ {a : List Char} {p Z b : List Char}, p ++ Z = a ++ b →
      a.length ≤ p.length → ∃ p', p = a ++ p' ∧ b = p' ++ Z := by
  intro a
  induction a with
  | nil =>
    intro p Z b h _
    exact ⟨p, rfl, by simpa using h.symm⟩
  | cons a0 a' ih =>
    intro p Z b h hlen
    cases p with
    | nil => simp at hlen
    | cons p0 ps =>
      rw [List.cons_append, List.cons_append] at h
      injection h with h1 h2
      subst h1
      obtain ⟨p', hp1, hp2⟩ := ih h2 (by simpa using hlen)
      exact ⟨p', by rw [List.cons_append, hp1], hp2⟩

/-- The well-formed match obtained by replacing the quoted reference of a
    well-formed match with `file:///<name>`. -/
theorem replMatch_WF (m : LoadMatch) (hWF : WF m) (name : List Char)
    (hq : ∀ c ∈ name, c ≠ qc) :
    WF { m with lit := "file:/".toList, g2 := "//".toList ++ name } := by
  refine ⟨hWF.hLoad, hWF.hw1, hWF.hCsv, hWF.hOpt, hWF.hw2, hWF.hFrom,
    hWF.hw3, ?_, ?_, ?_, hWF.hw4, hWF.hAs, hWF.hw5, hWF.hg4, hWF.hg4w⟩
  · exact ciEq_refl _
  · intro h
    exact absurd (List.append_eq_nil.mp h).1 (by decide)
  · intro c hc
    rcases List.mem_append.mp hc with hc | hc
    · have h1 : c = '/' := by simpa using hc
      subst h1
      decide
    · exact hq c hc

/-- The text of the replacement match is the substituted load clause. -/
theorem replMatch_text (m : LoadMatch) (name : List Char) :
    LoadMatch.text
        { m with lit := "file:/".toList, g2 := "//".toList ++ name } =
      m.g1 ++ qc :: (("file:///".toList ++ name) ++ qc :: m.g3) := by
  simp only [LoadMatch.text, LoadMatch.g1, LoadMatch.g3]
  rw [show ("file:///".toList : List Char) =
    "file:/".toList ++ "//".toList from rfl]
  simp [List.append_assoc]

/-! ### The re-search after substitution always succeeds -/

theorem rewriteScript_ne_internalError (content : List Char)
    (dirFiles : List (List Char)) (sname : List Char) :
    rewriteScript content dirFiles sname ≠ RewriteOutcome.internalError := by
  intro hcontra
  unfold rewriteScript at hcontra
  split at hcontra
  · exact RewriteOutcome.noConfusion hcontra
  · split at hcontra
    · exact RewriteOutcome.noConfusion hcontra
    · rename_i p m r1 hs
      split at hcontra
      · split at hcontra
        · rename_i hnone
          have hcne : content ≠ [] := by
            intro hnil
            subst hnil
            rw [show List.dropLast ([] : List Char) = [] from rfl,
              show searchSplit [] = none from rfl] at hs
            cases hs
          obtain ⟨hdec, hmatch, _⟩ := searchSplit_sound hs
          obtain ⟨_, hWF, _⟩ := matchAt_sound hmatch
          have hfull : content =
              p ++ (m.text ++ (r1 ++ [content.getLast hcne])) := by
            conv_lhs => rw [← List.dropLast_append_getLast hcne]
            rw [hdec]
            simp [List.append_assoc]
          have hsome1 : (searchSplit content).isSome = true := by
            rw [hfull]
            exact searchSplit_isSome_mk p
              (matchAt_mk m hWF (r1 ++ [content.getLast hcne]))
          obtain ⟨w, hw⟩ := Option.isSome_iff_exists.mp hsome1
          obtain ⟨p2, m2, r2⟩ := w
          have hWF2 := replMatch_WF m hWF (pathName m.g2)
            (pathName_quoteFree hWF.hg2q)
          have hmm2 : (matchAt ((m.g1 ++ qc ::
              (("file:///".toList ++ pathName m.g2) ++ qc :: m.g3)) ++
                r2)).isSome = true := by
            rw [← replMatch_text m (pathName m.g2), matchAt_mk _ hWF2 r2]
            rfl
          obtain ⟨vv, hvv⟩ := Option.isSome_iff_exists.mp hmm2
          obtain ⟨mm, rr⟩ := vv
          have hsome2 : (searchSplit (subFirst content
              (m.g1 ++ qc :: (("file:///".toList ++ pathName m.g2) ++
                qc :: m.g3)))).isSome = true := by
            rw [subFirst_eq hw]
            exact searchSplit_isSome_mk p2 hvv
          rw [hnone] at hsome2
          simp at hsome2
        · split at hcontra
          · exact RewriteOutcome.noConfusion hcontra
          · exact RewriteOutcome.noConfusion hcontra
      · exact RewriteOutcome.noConfusion hcontra

/-! ### The shape of a successful rewrite -/

theorem stripList_isEmpty_false_of_text {content p r : List Char}
    {m : LoadMatch} (hdec : content = p ++ (m.text ++ r)) (hWF : WF m) :
    (stripList content).isEmpty = false := by
  cases he : (stripList content).isEmpty
  · rfl
  · exfalso
    have hnil : stripList content = [] := List.isEmpty_iff.mp he
    have hall := stripList_nil_all hnil
    have hL' : ciEq m.kLoad ('L' :: ['O', 'A', 'D']) = true := hWF.hLoad
    obtain ⟨c0, ts, hk, hc0⟩ := head_ci_notSpace hL' (by decide)
    have h1 : c0 ∈ m.kLoad := by rw [hk]; exact List.mem_cons_self _ _
    have h2 : c0 ∈ content := by
      rw [hdec]
      simp only [LoadMatch.text, LoadMatch.g1, List.mem_append,
        List.mem_cons]
      tauto
    have h3 := hall c0 h2
    rw [hc0] at h3
    cases h3

theorem rewrite_success_shape
    (content : List Char) (dirFiles : List (List Char)) (sname : List Char)
    (p r : List Char) (m : LoadMatch)
    (h1 : searchSplit content = some (p, m, r))
    (h2 : searchSplit content.dropLast = some (p, m, r.dropLast))
    (hfile : dirFiles.contains (pathName m.g2) = true)
    (hcore : (stripList r).isEmpty = false) :
    rewriteScript content dirFiles sname =
      RewriteOutcome.success (mkBatched
        (p ++ (m.g1 ++ qc :: (("file:///".toList ++ pathName m.g2) ++
          qc :: m.g3)))
        m.g4 (stripList r) sname) := by
  obtain ⟨hdec, hmatch, hleft⟩ := searchSplit_sound h1
  obtain ⟨_, hWF, hstop⟩ := matchAt_sound hmatch
  have hWF2 := replMatch_WF m hWF (pathName m.g2)
    (pathName_quoteFree hWF.hg2q)
  have hstrip := stripList_isEmpty_false_of_text hdec hWF
  -- the substituted text and its leftmost match
  have hmk : matchAt ((m.g1 ++ qc ::
      (("file:///".toList ++ pathName m.g2) ++ qc :: m.g3)) ++ r) =
      some ({ m with lit := "file:/".toList, g2 := "//".toList ++ pathName m.g2 }, r) := by
    rw [← replMatch_text m (pathName m.g2)]
    exact matchAt_mk_stop _ hWF2 hstop
  have hearly : ∀ a b, p ++ ((m.g1 ++ qc ::
      (("file:///".toList ++ pathName m.g2) ++ qc :: m.g3)) ++ r) =
        a ++ b → a.length < p.length → matchAt b = none := by
    intro a b hab hlen
    obtain ⟨p', hp1, hp2⟩ := append_split_of_le hab (Nat.le_of_lt hlen)
    have hb0 : matchAt (p' ++ (m.text ++ r)) = none := by
      refine hleft a (p' ++ (m.text ++ r)) ?_ hlen
      rw [hdec, hp1]
      simp [List.append_assoc]
    have hargeq : p' ++ (m.text ++ r) =
        (p' ++ m.g1) ++ qc :: ((m.lit ++ m.g2) ++ qc :: (m.g3 ++ r)) := by
      simp [LoadMatch.text, List.append_assoc, List.cons_append]
    rw [hargeq] at hb0
    have hargeq2 : b = (p' ++ m.g1) ++ qc ::
        ((("file:///".toList ++ pathName m.g2)) ++ qc :: (m.g3 ++ r)) := by
      rw [hp2]
      simp [List.append_assoc, List.cons_append]
    rw [hargeq2]
    refine matchAt_none_swap ?_ ?_ ?_ ?_ hb0
    · exact quoteFree_append (ciEq_quoteFree hWF.hLit (by decide)) hWF.hg2q
    · exact ⟨m.lit, m.g2, rfl, hWF.hLit, hWF.hg2⟩
    · refine quoteFree_append ?_ (pathName_quoteFree hWF.hg2q)
      intro c hc
      rcases (by simpa using hc :
        c = 'f' ∨ c = 'i' ∨ c = 'l' ∨ c = 'e' ∨ c = ':' ∨ c = '/') with
        rfl | rfl | rfl | rfl | rfl | rfl <;> decide
    · refine ⟨"file:/".toList, "//".toList ++ pathName m.g2, ?_,
        ciEq_refl _, ?_⟩
      · rw [show ("file:///".toList : List Char) =
          "file:/".toList ++ "//".toList from rfl]
        simp [List.append_assoc]
      · intro h
        exact absurd (List.append_eq_nil.mp h).1 (by decide)
  have hsub : searchSplit (subFirst content
      (m.g1 ++ qc :: (("file:///".toList ++ pathName m.g2) ++
        qc :: m.g3))) =
      some (p, { m with lit := "file:/".toList, g2 := "//".toList ++ pathName m.g2 }, r) := by
    rw [subFirst_eq h1]
    exact searchSplit_mk p hmk hearly
  -- now evaluate the rewrite step
  unfold rewriteScript
  rw [if_neg (by simp [hstrip])]
  simp only [h2]
  rw [if_pos hfile]
  simp only [hsub]
  rw [if_neg (by simp [hcore]), replMatch_text]

/-! ### Driver and discovery lemmas -/

theorem importOk_iff (er : Bool) (pr : Nat) (hf : Bool) :
    importOk er pr hf = true ↔ er = false ∧ (0 < pr ∨ hf = false) := by
  unfold importOk
  cases er <;> cases hf <;> cases pr <;> simp

theorem processScript_visited (d : List (List Char)) (x : List Char → Bool)
    (st : ImportState) (s : Script) :
    (processScript d x st s).visited = st.visited ++ [s] := by
  simp only [processScript]
  split <;> first
    | rfl
    | (split <;> rfl)

theorem foldl_visited (d : List (List Char)) (x : List Char → Bool) :
    ∀ (l : List Script) (st : ImportState),
      (l.foldl (processScript d x) st).visited = st.visited ++ l := by
  intro l
  induction l with
  | nil => intro st; simp
  | cons s ss ih =>
    intro st
    rw [List.foldl_cons, ih, processScript_visited]
    simp

theorem lexLe_total : ∀ a b : List Char, lexLe a b = true ∨ lexLe b a = true := by
  intro a
  induction a with
  | nil => intro b; left; rfl
  | cons c cs ih =>
    intro b
    cases b with
    | nil => right; rfl
    | cons d ds =>
      rcases lt_trichotomy c d with h | h | h
      · left; unfold lexLe; rw [if_pos h]
      · subst h
        rcases ih ds with h2 | h2
        · left; unfold lexLe; rw [if_neg (lt_irrefl c), if_pos rfl]; exact h2
        · right; unfold lexLe; rw [if_neg (lt_irrefl c), if_pos rfl]; exact h2
      · right; unfold lexLe; rw [if_pos h]

theorem lexLe_trans :
    ∀ a b c : List Char, lexLe a b = true → lexLe b c = true →
      lexLe a c = true := by
  intro a
  induction a with
  | nil => intro b c _ _; rfl
  | cons x xs ih =>
    intro b c hab hbc
    cases b with
    | nil => unfold lexLe at hab; cases hab
    | cons y ys =>
      cases c with
      | nil => unfold lexLe at hbc; cases hbc
      | cons z zs =>
        unfold lexLe at hab hbc ⊢
        by_cases h1 : x < y
        · rw [if_pos h1] at hab
          by_cases h2 : y < z
          · rw [if_pos (lt_trans h1 h2)]
          · rw [if_neg h2] at hbc
            by_cases h3 : y = z
            · subst h3; rw [if_pos h1]
            · rw [if_neg h3] at hbc; cases hbc
        · rw [if_neg h1] at hab
          by_cases h1e : x = y
          · rw [if_pos h1e] at hab
            subst h1e
            by_cases h2 : x < z
            · rw [if_pos h2]
            · rw [if_neg h2] at hbc ⊢
              by_cases h3 : x = z
              · rw [if_pos h3] at hbc ⊢
                subst h3
                exact ih ys zs hab hbc
              · rw [if_neg h3] at hbc; cases hbc
          · rw [if_neg h1e] at hab; cases hab

theorem parseArgs_no_url (a b c d e : List Char) (f : Option (List Char))
    (g h : List Char) :
    (parseArgs a b c d e f g h).getattrOpt "neo4j_url" = none := rfl

/-! ### Claims -/

/-- Claim C1: for every script text containing exactly one loading clause —
    found at the same place with the same groups `(p, m, r)` by the search
    over the text minus its last character and by the substitution's search
    over the full text — that references a data file existing in the
    script's directory, and whose body is nonempty after stripping, the
    rewrite step produces exactly the batched query whose load-clause file
    reference is `file:///<basename>` of the referenced data file and whose
    body is wrapped in exactly one CALL block executed IN TRANSACTIONS OF
    1000 ROWS (`mkBatched`).  The backslash-free hypothesis keeps the
    `re.sub` replacement template literal, which is how `subFirst` models
    it (groups 1 and 3 can never contain a backslash). -/
theorem claim_C1 (content : List Char) (dirFiles : List (List Char))
    (sname p r : List Char) (m : LoadMatch)
    (h1 : searchSplit content = some (p, m, r))
    (h2 : searchSplit content.dropLast = some (p, m, r.dropLast))
    (hfile : dirFiles.contains (pathName m.g2) = true)
    (hbs : Char.ofNat 92 ∉ m.g2)
    (hcore : (stripList r).isEmpty = false) :
    rewriteScript content dirFiles sname =
      RewriteOutcome.success (mkBatched
        (p ++ (m.g1 ++ qc :: (("file:///".toList ++ pathName m.g2) ++
          qc :: m.g3)))
        m.g4 (stripList r) sname) :=
  rewrite_success_shape content dirFiles sname p r m h1 h2 hfile hcore

/-- Witness for claim C1 at a concrete one-clause script. -/
theorem claim_C1_witness :
    searchSplit w1Content = some ([], w1M, w1R) ∧
    searchSplit w1Content.dropLast = some ([], w1M, w1R.dropLast) ∧
    w1Dir.contains (pathName w1M.g2) = true ∧
    Char.ofNat 92 ∉ w1M.g2 ∧
    (stripList w1R).isEmpty = false ∧
    rewriteScript w1Content w1Dir "s.csv".toList =
      RewriteOutcome.success (mkBatched
        ([] ++ (w1M.g1 ++ qc :: (("file:///".toList ++ pathName w1M.g2) ++
          qc :: w1M.g3)))
        w1M.g4 (stripList w1R) "s.csv".toList) :=
  ⟨by decide, by decide, by decide, by decide, by decide,
    claim_C1 w1Content w1Dir "s.csv".toList [] w1R w1M (by decide)
      (by decide) (by decide) (by decide) (by decide)⟩

/-- Counterexample for claim C2: on a script whose body ends in the
    non-terminator character `)`, the code emits the wrapper body
    `CREATE (n` — the final `)` is lost — while the claim predicts that only
    a final terminator is ever stripped (`specWrapped`, modelled from the
    spec), so the two outputs differ. -/
theorem claim_C2_counterexample :
    rewriteScript cexContent w1Dir "s.csv".toList =
      RewriteOutcome.success
        (mkBatched cexLoadFull ['l'] "CREATE (n)".toList "s.csv".toList) ∧
    specWrapped cexLoadFull ['l'] "CREATE (n)".toList "s.csv".toList ≠
      mkBatched cexLoadFull ['l'] "CREATE (n)".toList "s.csv".toList :=
  ⟨by decide, by decide⟩

/-- Claim C2 (amended): the rewrite alters only the load-clause file
    reference and adds the batching wrapper; the body placed inside the
    wrapper is the original body (stripped of surrounding whitespace) with
    newlines re-indented and its final character dropped unconditionally —
    cosmetic when that character is the terminator, but a body ending in any
    other character loses that final character.  The backslash-free
    hypothesis keeps the `re.sub` replacement template literal, as
    `subFirst` models it. -/
theorem claim_C2_amended (content : List Char) (dirFiles : List (List Char))
    (sname p r : List Char) (m : LoadMatch)
    (h1 : searchSplit content = some (p, m, r))
    (h2 : searchSplit content.dropLast = some (p, m, r.dropLast))
    (hfile : dirFiles.contains (pathName m.g2) = true)
    (hbs : Char.ofNat 92 ∉ m.g2)
    (hcore : (stripList r).isEmpty = false) :
    rewriteScript content dirFiles sname =
      RewriteOutcome.success
        ((p ++ (m.g1 ++ qc :: (("file:///".toList ++ pathName m.g2) ++
          qc :: m.g3))) ++ '\n' ::
          ("CALL \x7b\n    WITH ".toList ++ m.g4 ++ '\n' ::
            ("    ".toList ++ indentNl (stripList r).dropLast ++ '\n' ::
              ("\x7d IN TRANSACTIONS OF ".toList ++
                (toString BATCH_SIZE).toList ++ " ROWS\n".toList ++
                "RETURN \x27Batch processed from ".toList ++ sname ++
                [qc])))) :=
  rewrite_success_shape content dirFiles sname p r m h1 h2 hfile hcore

/-- Witness for the amended claim C2 at the counterexample script. -/
theorem claim_C2_witness :
    searchSplit cexContent = some ([], w1M, cexR) ∧
    searchSplit cexContent.dropLast = some ([], w1M, cexR.dropLast) ∧
    w1Dir.contains (pathName w1M.g2) = true ∧
    Char.ofNat 92 ∉ w1M.g2 ∧
    (stripList cexR).isEmpty = false ∧
    rewriteScript cexContent w1Dir "s.csv".toList =
      RewriteOutcome.success
        (([] ++ (w1M.g1 ++ qc :: (("file:///".toList ++ pathName w1M.g2) ++
          qc :: w1M.g3))) ++ '\n' ::
          ("CALL \x7b\n    WITH ".toList ++ w1M.g4 ++ '\n' ::
            ("    ".toList ++ indentNl (stripList cexR).dropLast ++ '\n' ::
              ("\x7d IN TRANSACTIONS OF ".toList ++
                (toString BATCH_SIZE).toList ++ " ROWS\n".toList ++
                "RETURN \x27Batch processed from ".toList ++
                "s.csv".toList ++ [qc])))) :=
  ⟨by decide, by decide, by decide, by decide, by decide,
    claim_C2_amended cexContent w1Dir "s.csv".toList [] cexR w1M (by decide)
      (by decide) (by decide) (by decide) (by decide)⟩

/-- Claim C3 (refuting theorem, code bug): for every invocation with a valid
    input path and password, argument validation does not pass — the access
    to the undefined attribute `neo4j_url` at line 342 (the parser defines
    only `neo4j_uri`) raises AttributeError, so the process terminates with
    an uncaught exception (status 1) without ever reaching the Joern parse
    phase, contradicting the claim that execution proceeds to it. -/
theorem claim_C3 (env : MainEnv)
    (hpw : truthy (if truthy env.cliPassword then env.cliPassword
      else env.envPassword) = true)
    (hex : env.inputPathExists = true)
    (hval : env.inputPathIsDir = true ∨ env.inputPathIsFile = true) :
    mainRun env = (MainResult.pyError PyErr.attributeError, false) := by
  simp only [mainRun]
  rw [hpw, hex]
  simp only [Bool.not_true, reduceIte]
  rcases hval with hv | hv
  · rw [hv]
    simp only [Bool.not_true, Bool.false_and, reduceIte, parseArgs_no_url]
    simp
  · rw [hv]
    simp only [Bool.not_true, Bool.and_false, reduceIte, parseArgs_no_url]
    simp

/-- Witness for claim C3 at a concrete environment in which every external
    collaborator would succeed. -/
theorem claim_C3_witness :
    truthy (if truthy wEnv.cliPassword then wEnv.cliPassword
      else wEnv.envPassword) = true ∧
    wEnv.inputPathExists = true ∧
    wEnv.inputPathIsDir = true ∧
    mainRun wEnv = (MainResult.pyError PyErr.attributeError, false) :=
  ⟨by decide, by decide, by decide,
    claim_C3 wEnv (by decide) (by decide) (Or.inl (by decide))⟩

/-- Claim C4: `import_online_neo4j` returns true exactly when no per-script
    error occurred and either at least one script was successfully processed
    or no scripts existed at all; with scripts present but zero processed it
    returns false even without an explicit error. -/
theorem claim_C4 (n e : List Script) (d : List (List Char))
    (x : List Char → Bool) :
    (import_online_neo4j n e d x).ok = true ↔
      (import_online_neo4j n e d x).importErrors = false ∧
        (0 < (import_online_neo4j n e d x).processed ∨
          (n = [] ∧ e = [])) := by
  unfold import_online_neo4j
  simp only
  rw [importOk_iff]
  have hh : (!(n.isEmpty && e.isEmpty)) = false ↔ (n = [] ∧ e = []) := by
    cases n <;> cases e <;> simp [List.isEmpty]
  rw [hh]

/-- Witness for claim C4: the empty run returns true. -/
theorem claim_C4_witness :
    (import_online_neo4j [] [] [] (fun _ => true)).ok = true :=
  (claim_C4 [] [] [] (fun _ => true)).mpr ⟨rfl, Or.inr ⟨rfl, rfl⟩⟩

/-- Claim C5: with two scripts of which the first is malformed and the
    second rewrites successfully and executes, the run records errors and
    continues — `import_online_neo4j` returns false and the processed count
    is exactly 1. -/
theorem claim_C5 (s1 s2 : Script) (d : List (List Char))
    (x : List Char → Bool) (q : List Char)
    (h1 : rewriteScript s1.content d s1.name = RewriteOutcome.malformed)
    (h2 : rewriteScript s2.content d s2.name = RewriteOutcome.success q)
    (hx : x q = true) :
    (import_online_neo4j [s1, s2] [] d x).ok = false ∧
    (import_online_neo4j [s1, s2] [] d x).processed = 1 := by
  have e1 : processScript d x ⟨[], 0, false⟩ s1 = ⟨[s1], 0, true⟩ := by
    simp [processScript, h1]
  have e2 : processScript d x ⟨[s1], 0, true⟩ s2 = ⟨[s1, s2], 1, true⟩ := by
    simp [processScript, h2, hx]
  unfold import_online_neo4j
  simp only [List.append_nil, List.foldl_cons, List.foldl_nil, e1, e2]
  simp [importOk]

/-- Witness for claim C5 at a concrete malformed/well-formed pair. -/
theorem claim_C5_witness :
    rewriteScript wBad.content w1Dir wBad.name = RewriteOutcome.malformed ∧
    (import_online_neo4j [wBad, wGood] [] w1Dir (fun _ => true)).ok =
      false ∧
    (import_online_neo4j [wBad, wGood] [] w1Dir
      (fun _ => true)).processed = 1 := by
  refine ⟨by decide, ?_⟩
  exact claim_C5 wBad wGood w1Dir (fun _ => true)
    (mkBatched cexLoadFull ['l'] "X;".toList wGood.name)
    (by decide) (by decide) rfl

/-- Claim C6: given a non-empty script text, the rewrite step fails with
    MalformedScript exactly when the pattern search over the text minus its
    trailing character finds nothing, and with DataFileMissing exactly when
    a clause is found but the referenced data file's basename is not in the
    script's directory. -/
theorem claim_C6 (content : List Char) (dirFiles : List (List Char))
    (sname : List Char) (h0 : (stripList content).isEmpty = false) :
    (rewriteScript content dirFiles sname = RewriteOutcome.malformed ↔
      searchSplit content.dropLast = none) ∧
    (rewriteScript content dirFiles sname = RewriteOutcome.dataFileMissing ↔
      ∃ p m r, searchSplit content.dropLast = some (p, m, r) ∧
        dirFiles.contains (pathName m.g2) = false) := by
  unfold rewriteScript
  rw [if_neg (by simp [h0])]
  cases hs : searchSplit content.dropLast with
  | none => simp
  | some v =>
    obtain ⟨p, m, r⟩ := v
    simp only
    by_cases hf : dirFiles.contains (pathName m.g2) = true
    · rw [if_pos hf]
      constructor
      · constructor
        · intro hEq
          exfalso
          split at hEq
          · exact RewriteOutcome.noConfusion hEq
          · split at hEq <;> exact RewriteOutcome.noConfusion hEq
        · intro hEq
          cases hEq
      · constructor
        · intro hEq
          exfalso
          split at hEq
          · exact RewriteOutcome.noConfusion hEq
          · split at hEq <;> exact RewriteOutcome.noConfusion hEq
        · rintro ⟨p', m', r', hsome, hcont⟩
          exfalso
          injection hsome with hv
          simp only [Prod.mk.injEq] at hv
          obtain ⟨hp, hm, hr⟩ := hv
          subst hm
          exact Bool.noConfusion (hf.symm.trans hcont)
    · rw [if_neg hf]
      constructor
      · simp
      · constructor
        · intro _
          exact ⟨p, m, r, rfl, by simpa using hf⟩
        · intro _
          rfl

/-- Witness for claim C6 at a concrete non-empty malformed script. -/
theorem claim_C6_witness :
    (stripList wBad.content).isEmpty = false ∧
    (rewriteScript wBad.content w1Dir wBad.name =
        RewriteOutcome.malformed ↔
      searchSplit wBad.content.dropLast = none) :=
  ⟨by decide, (claim_C6 wBad.content w1Dir wBad.name (by decide)).1⟩

/-- Claim C7: file discovery fails with NotFound exactly when the path is
    not an existing directory; otherwise it returns the `nodes_*_cypher.csv`
    and `edges_*_cypher.csv` files as two lists, each sorted
    lexicographically — on the example directory
    `[edges_x_cypher.csv, nodes_b_cypher.csv, nodes_a_cypher.csv]` it yields
    node list `[nodes_a_cypher.csv, nodes_b_cypher.csv]` and edge list
    `[edges_x_cypher.csv]`. -/
theorem claim_C7 :
    (∀ d, get_cypher_files d = Except.error DiscoveryError.notFound ↔
        d = none) ∧
    (∀ l ns es, get_cypher_files (some l) = Except.ok (ns, es) →
        List.Sorted scriptLe ns ∧ List.Sorted scriptLe es ∧
        (∀ s, s ∈ ns ↔ s ∈ l ∧
          globMatch "nodes_".toList "_cypher.csv".toList s.name = true) ∧
        (∀ s, s ∈ es ↔ s ∈ l ∧
          globMatch "edges_".toList "_cypher.csv".toList s.name = true)) ∧
    get_cypher_files (some exListing) = Except.ok ([exA, exB], [exX]) := by
  haveI htot : IsTotal Script scriptLe :=
    ⟨fun a b => lexLe_total a.name b.name⟩
  haveI htr : IsTrans Script scriptLe :=
    ⟨fun a b c hab hbc => lexLe_trans a.name b.name c.name hab hbc⟩
  refine ⟨?_, ?_, ?_⟩
  · intro d
    cases d with
    | none => simp [get_cypher_files]
    | some l => simp [get_cypher_files]
  · intro l ns es h
    simp only [get_cypher_files, Except.ok.injEq, Prod.mk.injEq] at h
    obtain ⟨hns, hes⟩ := h
    subst hns
    subst hes
    refine ⟨?_, ?_, ?_, ?_⟩
    · exact List.sorted_insertionSort scriptLe _
    · exact List.sorted_insertionSort scriptLe _
    · intro s
      unfold sortByName
      rw [List.Perm.mem_iff (List.perm_insertionSort scriptLe _)]
      simp [List.mem_filter]
    · intro s
      unfold sortByName
      rw [List.Perm.mem_iff (List.perm_insertionSort scriptLe _)]
      simp [List.mem_filter]
  · rfl

/-- Witness for claim C7: NotFound on a missing directory, and the sorted
    outputs of the example directory. -/
theorem claim_C7_witness :
    get_cypher_files none = Except.error DiscoveryError.notFound ∧
    List.Sorted scriptLe [exA, exB] ∧ List.Sorted scriptLe [exX] := by
  refine ⟨(claim_C7.1 none).mpr rfl, ?_, ?_⟩
  · exact (claim_C7.2.1 exListing [exA, exB] [exX] (by rfl)).1
  · exact (claim_C7.2.1 exListing [exA, exB] [exX] (by rfl)).2.1

/-- Claim C8: the per-script loop of `import_online_neo4j` visits exactly
    the node-script list followed by the edge-script list, so no edge script
    is ever reached before every node script has been visited. -/
theorem claim_C8 (n e : List Script) (d : List (List Char))
    (x : List Char → Bool) :
    (import_online_neo4j n e d x).visited = n ++ e := by
  unfold import_online_neo4j
  simp only
  rw [foldl_visited]
  rfl

/-- Witness for claim C8 at a concrete pair of scripts. -/
theorem claim_C8_witness :
    (import_online_neo4j [wGood] [wBad] w1Dir
      (fun _ => true)).visited = [wGood] ++ [wBad] :=
  claim_C8 [wGood] [wBad] w1Dir (fun _ => true)

/-- Claim C9: the rewrite step is deterministic — it is a pure function of
    the script text, the directory contents and the script name, so two
    invocations on the same inputs yield identical output. -/
theorem claim_C9 (c1 c2 : List Char) (d1 d2 : List (List Char))
    (n1 n2 : List Char) (hc : c1 = c2) (hd : d1 = d2) (hn : n1 = n2) :
    rewriteScript c1 d1 n1 = rewriteScript c2 d2 n2 := by
  subst hc
  subst hd
  subst hn
  rfl

/-- Witness for claim C9 at a concrete input. -/
theorem claim_C9_witness :
    rewriteScript w1Content w1Dir "s.csv".toList =
      rewriteScript w1Content w1Dir "s.csv".toList :=
  claim_C9 w1Content w1Content w1Dir w1Dir "s.csv".toList "s.csv".toList
    rfl rfl rfl

/-- Claim C10: after the first substitution the load-clause pattern always
    re-matches in the modified text, so the internal-error branch that skips
    the file after a failed re-match is unreachable: the rewrite step never
    returns `internalError`. -/
theorem claim_C10 (content : List Char) (dirFiles : List (List Char))
    (sname : List Char) :
    rewriteScript content dirFiles sname ≠ RewriteOutcome.internalError :=
  rewriteScript_ne_internalError content dirFiles sname

/-- Witness for claim C10 at a concrete input that reaches the re-search. -/
theorem claim_C10_witness :
    rewriteScript w1Content w1Dir "s.csv".toList ≠
      RewriteOutcome.internalError :=
  claim_C10 w1Content w1Dir "s.csv".toList

end JoernToNeo4j
